import Mathlib

/-!
Shallow embedding of the klogg log-indexing core
(`src/logdata/src/logdataworker.cpp`): the indexing-state object
(`IndexingData::addAll`, `clear`), the block parser
(`IndexOperation::parseDataBlock`), the indexing driver
(`IndexOperation::doIndex`), the three operations (full index, partial
index, check-file-changes) and the file-change detector
(`CheckFileChangesOperation::doCheckFileChanges`).

Bytes are `Nat` (values of `unsigned char`), byte counts are `Nat`
(`qint64` values that the source keeps non-negative), parser arithmetic
is `Int` (the source uses signed `qint64`/`int`).  The multi-threaded
TBB pipeline delivers blocks to the serial parser in strictly ascending
offset order with a final sentinel, so it is embedded as a sequential
fold over the list of blocks the reader emits.
-/

/-- `IndexingBlockSize` from logdataworker.cpp: 1 MiB. -/
def IndexingBlockSize : Nat := 1 * 1024 * 1024

/-- `TabStop`: fixed display width of 8 columns. -/
def TabStop : Int := 8

/-- Modelled from the spec (§4.3): `FileDigest` (xxhash wrapper, not under
src/) is an incremental 64-bit non-cryptographic hash, stable across runs
(same bytes ⇒ same digest).  We model the accumulator state as a `Nat`
below `2^64` and fold bytes with a polynomial update. -/
abbrev FileDigest := Nat

/-- Modelled from the spec: the empty digest accumulator (`FileDigest` default
construction / `reset()`). -/
def FileDigest.empty : FileDigest := (0 : Nat)

/-- Modelled from the spec: `FileDigest::addData` folds the bytes into the
accumulator. -/
def FileDigest.addData (d : FileDigest) (bytes : List Nat) : FileDigest :=
  bytes.foldl (fun a b => (a * 31 + b + 1) % 2 ^ 64) d

/-- Modelled from the spec: `FileDigest::digest()` returns the 64-bit value. -/
def FileDigest.digest (d : FileDigest) : Nat := d

/-- Modelled from the spec: `FileDigest::hash()` (stored alongside the
digest in `IndexedHash`). -/
def FileDigest.hashValue (d : FileDigest) : Nat := d

/-- Digest of a byte list from a fresh accumulator. -/
def digestBytes (bytes : List Nat) : Nat :=
  (FileDigest.empty.addData bytes).digest

/-- Modelled from the spec (§4.1): a `QTextCodec` as seen by the core —
the only properties the indexing code reads are the encoding parameters,
`line_feed_width` and `before_cr_offset`. -/
structure QTextCodec where
  lineFeedWidth : Int
  beforeCrOffset : Int
deriving Repr, DecidableEq

/-- Modelled from the spec (§4.1, §7): `QTextCodec::codecForLocale()`, the
platform default codec — one byte per `\n`. -/
def codecForLocale : QTextCodec := ⟨1, 0⟩

/-- Modelled from the spec (§4.1): `EncodingParameters` —
`(line_feed_width, before_cr_offset)` for a codec; the default-constructed
value (used by `IndexingState` until `guessEncoding` assigns it) is
`(1, 0)`. -/
structure EncodingParameters where
  lineFeedWidth : Int := 1
  beforeCrOffset : Int := 0
deriving Repr, DecidableEq

/-- Modelled from the spec (§4.1): `EncodingParameters(QTextCodec*)`. -/
def EncodingParameters.ofCodec (c : QTextCodec) : EncodingParameters :=
  ⟨c.lineFeedWidth, c.beforeCrOffset⟩

/-- Modelled from the spec (§4.1): `EncodingDetector::detectEncoding`
(not under src/) — BOM sniff + statistical heuristic, else the platform
default.  We model the default branch (BOM-less content), which is the
codec every scenario of the spec uses. -/
def detectEncoding (_block : List Nat) : QTextCodec := codecForLocale

/-- Modelled from the spec (§4.2): `FastLinePositionArray`, the scratch
output of one block parse: line-start offsets plus the fake-final-LF
marker set by `setFakeFinalLF()`. -/
structure FastLinePositionArray where
  lines : List Int := []
  fakeFinalLF : Bool := false
deriving Repr, DecidableEq

/-- Modelled from the spec (§3, §4.2): `LinePositionArray` — the
line-start offsets, a trailing sentinel entry past end-of-file, and the
`fake_final_lf` marker. -/
structure LinePositionArray where
  lines : List Int := []
  fakeFinalLF : Bool := false
deriving Repr, DecidableEq

/-- Modelled from the spec (§4.2, §8.5): `LinePositionArray::append_list`
(linepositionarray.h is not under src/) — atomic bulk extension.  A
previously recorded fake final LF entry is replaced by the appended
positions (required by the append law §8.5: the fake sentinel stands for
the still-unterminated last line), and the marker is taken from the
appended array. -/
def LinePositionArray.append_list (a : LinePositionArray)
    (p : FastLinePositionArray) : LinePositionArray :=
  { lines := (if a.fakeFinalLF then a.lines.dropLast else a.lines) ++ p.lines
    fakeFinalLF := p.fakeFinalLF }

/-- `IndexedHash` (logdataworker.h): fingerprints of the indexed range —
total size, rolling full digest, header window and tail window. -/
structure IndexedHash where
  size : Nat := 0
  fullDigest : Nat := 0
  hashValue : Nat := 0
  headerBlocks : List (List Nat) := []
  headerDigest : Nat := 0
  headerSize : Nat := 0
  tailBlocks : List (Nat × List Nat) := []
  tailOffset : Nat := 0
  tailSize : Nat := 0
  tailDigest : Nat := 0
deriving Repr, DecidableEq

/-- Sum of the sizes of the blocks of a tail-block FIFO
(`std::accumulate` over `tailBlock.second.size()`). -/
def tailBlocksSum (l : List (Nat × List Nat)) : Nat :=
  l.foldl (fun acc b => acc + b.2.length) 0

/-- Digest over all blocks of the header FIFO (the `headerDigest`
recomputation loop in `IndexingData::addAll`). -/
def digestOfBlocks (l : List (List Nat)) : Nat :=
  (l.foldl (fun d b => FileDigest.addData d b) FileDigest.empty).digest

/-- Digest over all blocks of the tail FIFO (the `tailDigest`
recomputation loop in `IndexingData::addAll`). -/
def digestOfTailBlocks (l : List (Nat × List Nat)) : Nat :=
  (l.foldl (fun d b => FileDigest.addData d b.2) FileDigest.empty).digest

/-- `IndexingData` (logdataworker.h/cpp): the shared indexing state —
line positions, max length, rolling hash builder, fingerprints and the
two codecs.  `none` stands for a null `QTextCodec*`. -/
structure IndexingData where
  maxLength : Int := 0
  linePosition : LinePositionArray := {}
  hashBuilder : FileDigest := FileDigest.empty
  hash : IndexedHash := {}
  encodingGuess : Option QTextCodec := none
  encodingForced : Option QTextCodec := none
deriving Repr, DecidableEq

/-- The empty indexing state (`IndexingData` default construction). -/
def IndexingData.empty : IndexingData := {}

/-- `IndexingData::getIndexedSize`. -/
def IndexingData.getIndexedSize (d : IndexingData) : Nat := d.hash.size

/-- `IndexingData::getNbLines` (`linePosition_.size()`). -/
def IndexingData.getNbLines (d : IndexingData) : Nat := d.linePosition.lines.length

/-- `IndexingData::setEncodingGuess`. -/
def IndexingData.setEncodingGuess (d : IndexingData) (c : Option QTextCodec) :
    IndexingData :=
  { d with encodingGuess := c }

/-- `IndexingData::forceEncoding`. -/
def IndexingData.forceEncoding (d : IndexingData) (c : Option QTextCodec) :
    IndexingData :=
  { d with encodingForced := c }

/-- `IndexingData::addAll` (logdataworker.cpp:137-183): merge max length,
bulk-extend the line positions; for a non-empty block update the rolling
full digest, the header window (pushed only while `headerSize <
IndexingBlockSize`), the tail window (push, single pop of the oldest
block when the sum exceeds `2 * IndexingBlockSize`, then recompute
`tailDigest`/`tailSize`/`tailOffset`) and the indexed size; finally
record the encoding guess.  `front()` of an empty deque is undefined
behaviour in the source; we return offset 0 there. -/
def IndexingData.addAll (d : IndexingData) (block : List Nat) (length : Int)
    (linePosition : FastLinePositionArray) (encoding : Option QTextCodec) :
    IndexingData :=
  let maxLength' := max d.maxLength length
  let linePosition' := d.linePosition.append_list linePosition
  if block.isEmpty then
    { d with maxLength := maxLength', linePosition := linePosition',
             encodingGuess := encoding }
  else
    let hashBuilder' := d.hashBuilder.addData block
    let h := d.hash
    let (headerBlocks', headerDigest', headerSize') :=
      if h.headerSize < IndexingBlockSize then
        let hb := h.headerBlocks ++ [block]
        (hb, digestOfBlocks hb, h.headerSize + block.length)
      else
        (h.headerBlocks, h.headerDigest, h.headerSize)
    let pushedTail := h.tailBlocks ++ [(h.size, block)]
    let tailBlocks' :=
      if tailBlocksSum pushedTail > 2 * IndexingBlockSize then pushedTail.tail
      else pushedTail
    let h' : IndexedHash :=
      { size := h.size + block.length
        fullDigest := hashBuilder'.digest
        hashValue := hashBuilder'.hashValue
        headerBlocks := headerBlocks'
        headerDigest := headerDigest'
        headerSize := headerSize'
        tailBlocks := tailBlocks'
        tailOffset := ((tailBlocks'.head?).map Prod.fst).getD 0
        tailSize := tailBlocksSum tailBlocks'
        tailDigest := digestOfTailBlocks tailBlocks' }
    { d with maxLength := maxLength', linePosition := linePosition',
             hashBuilder := hashBuilder', hash := h',
             encodingGuess := encoding }

/-- `IndexingData::clear` (logdataworker.cpp:185-193). -/
def IndexingData.clear (_d : IndexingData) : IndexingData := {}

/-- A file on disk as the operations see it: its bytes (via
`QFileInfo::size` / `QFile::read`) and whether `QFile::open` succeeds. -/
structure File where
  contents : List Nat
  openable : Bool
deriving Repr, DecidableEq

/-- The configuration values the core reads (§6). -/
structure Configuration where
  fastModificationDetection : Bool
  indexReadBufferSizeMb : Nat
deriving Repr, DecidableEq

/-- `MonitoredFileStatus`. -/
inductive MonitoredFileStatus where
  | Unchanged
  | DataAdded
  | Truncated
deriving Repr, DecidableEq

/-- The `getDigest` lambda of `doCheckFileChanges`
(logdataworker.cpp:677-694): starting at file position `filePos`, read
chunks of `min(IndexingBlockSize, remaining)` bytes and fold them into a
fresh digest until `remaining` bytes were consumed or a read returns no
data (EOF).  Returns the digest and the new file position. -/
def getDigestLoop (contents : List Nat) (filePos : Nat) (remaining : Nat)
    (acc : FileDigest) : Nat × Nat :=
  let chunk := (contents.drop filePos).take (min IndexingBlockSize remaining)
  if _h : chunk.length = 0 then
    (acc.digest, filePos)
  else
    getDigestLoop contents (filePos + chunk.length) (remaining - chunk.length)
      (acc.addData chunk)
termination_by remaining
decreasing_by
  simp only [chunk, List.length_take] at _h ⊢
  omega

/-- `CheckFileChangesOperation::doCheckFileChanges`
(logdataworker.cpp:654-738).  Snapshot the `IndexedHash` under a const
accessor; `Truncated` when the real size is 0 or below the indexed size,
or the file cannot be opened, or a digest comparison fails (header +
tail digests on the fast path, full digest otherwise); else `DataAdded`
when the file grew, `Unchanged` when the sizes match.  The operation
only reads the indexing state, so it is returned unchanged. -/
def doCheckFileChanges (fileName : File) (d : IndexingData)
    (config : Configuration) : MonitoredFileStatus × IndexingData :=
  let indexedHash := d.hash
  let realFileSize := fileName.contents.length
  if realFileSize = 0 ∨ realFileSize < indexedHash.size then
    (MonitoredFileStatus.Truncated, d)
  else if ¬(fileName.openable = true) then
    (MonitoredFileStatus.Truncated, d)
  else
    let isFileModified :=
      if config.fastModificationDetection = true
          ∧ indexedHash.size > 2 * IndexingBlockSize then
        let headerDigest :=
          (getDigestLoop fileName.contents 0 indexedHash.headerSize
            FileDigest.empty).1
        if headerDigest ≠ indexedHash.headerDigest then
          true
        else
          let tailDigest :=
            (getDigestLoop fileName.contents indexedHash.tailOffset
              indexedHash.tailSize FileDigest.empty).1
          tailDigest ≠ indexedHash.tailDigest
      else
        let realHashDigest :=
          (getDigestLoop fileName.contents 0 indexedHash.size
            FileDigest.empty).1
        realHashDigest ≠ indexedHash.fullDigest
    if isFileModified then (MonitoredFileStatus.Truncated, d)
    else if realFileSize > indexedHash.size then
      (MonitoredFileStatus.DataAdded, d)
    else (MonitoredFileStatus.Unchanged, d)

/-- `CheckFileChangesOperation::run` (logdataworker.cpp:646-652): perform
the check and emit `fileCheckFinished` with the result. -/
def CheckFileChangesOperation.run (fileName : File) (d : IndexingData)
    (config : Configuration) : MonitoredFileStatus × IndexingData :=
  doCheckFileChanges fileName d config

/-- `IndexingState` (logdataworker.h, fields per spec §3 "ParserState"):
the per-operation sequential parser state.  Defaults follow the header:
positions 0, counters 0, null codecs, default encoding parameters. -/
structure IndexingState where
  pos : Int := 0
  endPos : Int := 0
  file_size : Int := 0
  max_length : Int := 0
  additional_spaces : Int := 0
  encodingGuess : Option QTextCodec := none
  fileTextCodec : Option QTextCodec := none
  encodingParams : EncodingParameters := {}
deriving Repr, DecidableEq

/-- `std::memchr` over a block slice: the first index `i` in
`[start, start + count)` holding byte `c`, scanning left to right.
Indices beyond the block's bytes hold nothing (`QByteArray`'s guaranteed
terminator region never matches a tab or line feed). -/
def memchr (c : Nat) (block : List Nat) (start : Nat) (count : Nat) :
    Option Nat :=
  match count with
  | 0 => none
  | count' + 1 =>
    match block.get? start with
    | none => none
    | some b => if b = c then some start else memchr c block (start + 1) count'

/-- A hit reported by `memchr` lies inside the block and at or after the
start of the window. -/
theorem memchr_bounds {c : Nat} {block : List Nat} {s cnt t : Nat}
    (h : memchr c block s cnt = some t) : s ≤ t ∧ t < block.length := by
  induction cnt generalizing s with
  | zero => simp [memchr] at h
  | succ n ih =>
    rw [memchr] at h
    match hg : block.get? s with
    | none => rw [hg] at h; simp at h
    | some b =>
      rw [hg] at h
      by_cases hb : b = c
      · simp [hb] at h
        subst h
        exact ⟨le_refl _, (List.get?_eq_some.mp hg).1⟩
      · simp [hb] at h
        have := ih h
        omega

/-- The `expandTabs` lambda of `parseDataBlock`
(logdataworker.cpp:323-350): walk the tabs of the window
`[searchStart, searchStart + lineSize)` with `memchr`, accumulating
`additional_spaces += TabStop - ((block_beginning - state.pos +
pos_within_block + additional_spaces) % TabStop) - 1` for each tab at
(adjusted) block index `pos_within_block`.  The source shrinks the
window by `next_tab - tab_search_start` only — not the tab byte itself —
so the window's end creeps one byte to the right per tab, exactly as in
the C++. -/
def expandTabsLoop (bb pos : Int) (bco : Int) (block : List Nat)
    (searchStart : Nat) (lineSize : Int) (spaces : Int) : Int :=
  match _h : memchr 9 block searchStart lineSize.toNat with
  | none => spaces
  | some t =>
    let pwb : Int := (t : Int) - bco
    let spaces' := spaces + (TabStop - (bb - pos + pwb + spaces).tmod TabStop - 1)
    let lineSize' := lineSize - ((t : Int) - (searchStart : Int))
    if lineSize' > 0 then
      expandTabsLoop bb pos bco block (t + 1) lineSize' spaces'
    else
      spaces'
termination_by block.length - searchStart
decreasing_by
  have hb := memchr_bounds _h
  omega

/-- The main loop of `IndexOperation::parseDataBlock`
(logdataworker.cpp:352-390): repeatedly recompute `pos_within_block =
max(state.pos - block_beginning, 0)`, `memchr` the next `\n`, expand the
tabs before it, and on a hit record the line end (adjusted by
`before_cr_offset`), fold the line's display length into `max_length`,
advance `state.pos` past the line feed and append the new line start.
The C++ `while` terminates because each found line feed advances the
scan; the fuel argument (instantiated at `block.length + 1`) makes that
explicit, and runs out only for encoding parameters the program never
produces (`line_feed_width ≤ before_cr_offset`). -/
def parseLoop (bb : Int) (block : List Nat) :
    Nat → IndexingState → List Int → IndexingState × List Int
  | 0, st, acc => (st, acc)
  | fuel + 1, st, acc =>
    let pwb : Int := max (st.pos - bb) 0
    let searchLineSize : Int := (block.length : Int) - pwb
    if searchLineSize > 0 then
      match memchr 10 block pwb.toNat searchLineSize.toNat with
      | some k =>
        let spaces' := expandTabsLoop bb st.pos st.encodingParams.beforeCrOffset
          block pwb.toNat ((k : Int) - pwb) st.additional_spaces
        let pwb2 : Int := (k : Int) - st.encodingParams.beforeCrOffset
        if pwb2 = -1 then
          ({ st with additional_spaces := spaces' }, acc)
        else
          let endPos' := pwb2 + bb
          let length := endPos' - st.pos + spaces'
          let maxLength' := max st.max_length length
          let pos' := endPos' + st.encodingParams.lineFeedWidth
          parseLoop bb block fuel
            { st with endPos := endPos', pos := pos', additional_spaces := 0,
                      max_length := maxLength' }
            (acc ++ [pos'])
      | none =>
        let spaces' := expandTabsLoop bb st.pos st.encodingParams.beforeCrOffset
          block pwb.toNat searchLineSize st.additional_spaces
        ({ st with additional_spaces := spaces' }, acc)
    else
      (st, acc)

/-- `IndexOperation::parseDataBlock` (logdataworker.cpp:310-393): reset
the per-block `max_length`, run the scan loop, return the new line
starts.  The C++ loop needs at most one iteration per block byte plus
one, hence the fuel. -/
def parseDataBlock (block_beginning : Int) (block : List Nat)
    (st : IndexingState) : FastLinePositionArray × IndexingState :=
  let (st', lines) :=
    parseLoop block_beginning block (block.length + 1)
      { st with max_length := 0 } []
  ({ lines := lines, fakeFinalLF := false }, st')

/-- `IndexOperation::guessEncoding` (logdataworker.cpp:395-419): fill the
detected guess on first sight of data; once, choose the file codec
(forced > shared-state guess > detected guess) and derive the encoding
parameters from it.  The `none` fallthrough is unreachable (the detected
guess is always non-null). -/
def guessEncoding (d : IndexingData) (block : List Nat)
    (st : IndexingState) : IndexingState :=
  let st1 :=
    if st.encodingGuess.isNone then
      { st with encodingGuess := some (detectEncoding block) }
    else st
  if st1.fileTextCodec.isNone then
    match d.encodingForced.orElse
        (fun _ => d.encodingGuess.orElse (fun _ => st1.encodingGuess)) with
    | some c =>
      { st1 with fileTextCodec := some c,
                 encodingParams := EncodingParameters.ofCodec c }
    | none => st1
  else st1

/-- Modelled from the spec (§4.8): `calculateProgress` (logdataworker.h,
not under src/) — position as a percentage of the file size, capped at
100. -/
def calculateProgress (pos size : Int) : Int := min 100 (pos * 100 / size)

/-- The parser node of the indexing graph (logdataworker.cpp:518-551):
skip the sentinel; refresh the encoding guess; for a non-empty block
parse it and `addAll` the results under a mutate accessor, emitting a
progress value; for an empty block only record the guess. -/
def processBlock (acc : IndexingData × IndexingState × List Int)
    (blockData : Int × List Nat) : IndexingData × IndexingState × List Int :=
  let (d, st, progs) := acc
  let (block_beginning, block) := blockData
  if block_beginning < 0 then acc
  else
    let st1 := guessEncoding d block st
    if block.isEmpty then (d.setEncodingGuess st1.encodingGuess, st1, progs)
    else
      let (line_positions, st2) := parseDataBlock block_beginning block st1
      let d' := d.addAll block st2.max_length line_positions st2.encodingGuess
      let prog := if st2.file_size > 0 then calculateProgress st2.pos st2.file_size
                  else 100
      (d', st2, progs ++ [prog])

/-- How many successful 1 MiB reads the reader performs before noticing a
stop condition: the earlier of an interrupt (checked before each read)
and a failing `read()` (logdataworker.cpp:478-509); `none` when neither
occurs. -/
def stopCount : Option Nat → Option Nat → Option Nat
  | none, none => none
  | some a, none => some a
  | none, some b => some b
  | some a, some b => some (min a b)

/-- The reader loop of the indexing graph (logdataworker.cpp:474-512):
from file position `pos`, while not at end of file and not stopped, read
up to `IndexingBlockSize` bytes and emit `(offset, bytes)`; `stop = some
j` caps the emission at `j` blocks (interrupt seen before a read, or a
read that fails). -/
def readChunks (contents : List Nat) (pos : Nat) (stop : Option Nat) :
    List (Int × List Nat) :=
  if _h : contents.length ≤ pos ∨ stop = some 0 then []
  else
    let chunk := (contents.drop pos).take IndexingBlockSize
    ((pos : Int), chunk)
      :: readChunks contents (pos + chunk.length) (stop.map (fun n => n - 1))
termination_by contents.length - pos
decreasing_by
  simp only [chunk, List.length_take, List.length_drop] at *
  have : 0 < IndexingBlockSize := by decide
  omega

/-- The parser state `doIndex` builds before starting the pipeline
(logdataworker.cpp:439-452): scan position at `initialPosition`, file
size from the opened file, file codec from forced-else-guess, detected
guess from the shared state. -/
def initialIndexingState (fileName : File) (initialPosition : Nat)
    (dIn : IndexingData) : IndexingState :=
  { pos := (initialPosition : Int)
    file_size := (fileName.contents.length : Int)
    fileTextCodec := dIn.encodingForced.orElse (fun _ => dIn.encodingGuess)
    encodingGuess := dIn.encodingGuess }

/-- The driver tail of `doIndex` after the pipeline drains
(logdataworker.cpp:563-596): append the fake final line feed at
`file_size + 1` when the file does not end on a terminator (skipped
under interrupt), clear the state when the interrupt flag is set, and
fall back to the platform default codec when no guess was recorded. -/
def indexFinalize (folded : IndexingData × IndexingState × List Int)
    (intrAt : Option Nat) : IndexingData × List Int :=
  let d1 := folded.1
  let st1 := folded.2.1
  let progs := folded.2.2
  let d2 :=
    if intrAt.isNone ∧ st1.file_size > st1.pos then
      d1.addAll [] 0 { lines := [st1.file_size + 1], fakeFinalLF := true }
        st1.encodingGuess
    else d1
  let d3 := if intrAt.isSome then d2.clear else d2
  let d4 := if d3.encodingGuess.isNone then
              d3.setEncodingGuess (some codecForLocale)
            else d3
  (d4, progs)

/-- `IndexOperation::doIndex` (logdataworker.cpp:421-597).  An unopenable
file clears the state, records the platform default codec as guess and
reports `progress(100)`.  Otherwise the reader's blocks (ending with the
`(-1, ∅)` sentinel) are folded through the serial parser node starting
from `initialIndexingState`, and `indexFinalize` performs the driver's
post-pipeline steps. -/
def doIndex (fileName : File) (initialPosition : Nat) (dIn : IndexingData)
    (intrAt failAt : Option Nat) : IndexingData × List Int :=
  if ¬(fileName.openable = true) then
    ((dIn.clear).setEncodingGuess (some codecForLocale), [100])
  else
    let chunks := readChunks fileName.contents initialPosition
        (stopCount intrAt failAt) ++ [((-1 : Int), ([] : List Nat))]
    indexFinalize
      (chunks.foldl processBlock
        (dIn, initialIndexingState fileName initialPosition dIn, []))
      intrAt

/-- `FullIndexOperation::run` (logdataworker.cpp:600-623): emit progress
0, clear the state and record the forced encoding under a mutate
accessor, index from offset 0, finish with `success = ¬interrupted`. -/
def FullIndexOperation.run (fileName : File)
    (forcedEncoding : Option QTextCodec) (d : IndexingData)
    (intrAt failAt : Option Nat) : Bool × IndexingData × List Int :=
  let d1 := (d.clear).forceEncoding forcedEncoding
  let r := doIndex fileName 0 d1 intrAt failAt
  (intrAt.isNone, r.1, 0 :: r.2)

/-- `PartialIndexOperation::run` (logdataworker.cpp:625-644): snapshot
`initial_position = indexed_size` under a const accessor, emit progress
0, index from that offset without clearing, finish with
`success = ¬interrupted`. -/
def PartialIndexOperation.run (fileName : File) (d : IndexingData)
    (intrAt failAt : Option Nat) : Bool × IndexingData × List Int :=
  let initial_position := d.getIndexedSize
  let r := doIndex fileName initial_position d intrAt failAt
  (intrAt.isNone, r.1, 0 :: r.2)

/-! ## Generic facts about the digest accumulator -/

theorem FileDigest.addData_nil (acc : FileDigest) :
    acc.addData [] = acc := rfl

theorem FileDigest.addData_append (acc : FileDigest) (xs ys : List Nat) :
    acc.addData (xs ++ ys) = (acc.addData xs).addData ys := by
  simp [FileDigest.addData, List.foldl_append]

/-- The chunked digest loop of `doCheckFileChanges` computes the digest of
the `r` bytes of the file starting at `p` (fewer when the file ends
first). -/
theorem getDigestLoop_addData (contents : List Nat) :
    ∀ r p acc, (getDigestLoop contents p r acc).1
      = (FileDigest.addData acc ((contents.drop p).take r)).digest := by
  intro r
  induction r using Nat.strong_induction_on with
  | _ r ih =>
    intro p acc
    rw [getDigestLoop.eq_def]
    dsimp only
    split
    next h =>
      have h' : min (min IndexingBlockSize r) (contents.length - p) = 0 := by
        simpa [List.length_take, List.length_drop] using h
      have hB : 0 < IndexingBlockSize := by decide
      have : r = 0 ∨ contents.length ≤ p := by omega
      rcases this with hr | hp
      · subst hr; simp [FileDigest.addData_nil]
      · have : contents.drop p = [] := by
          apply List.eq_nil_of_length_eq_zero
          simp [List.length_drop]; omega
        simp [this, FileDigest.addData_nil]
    next h =>
      set l' := contents.drop p with hl'
      set m := min IndexingBlockSize r with hm
      set c := l'.take m with hc
      have hcl : c.length = min m l'.length := by
        rw [hc]; simp [List.length_take]
      have hmr : m ≤ r := by omega
      have hcpos : 0 < c.length := by omega
      have hdd : contents.drop (p + c.length) = l'.drop c.length := by
        rw [hl', List.drop_drop, Nat.add_comm]
      have hlist : c ++ (contents.drop (p + c.length)).take (r - c.length)
          = l'.take r := by
        rw [hdd]
        by_cases hcase : l'.length ≤ m
        · have h1 : c = l' := by rw [hc]; exact List.take_of_length_le hcase
          have h2 : c.length = l'.length := by rw [h1]
          rw [h2, List.drop_length, List.take_nil, List.append_nil, h1,
            List.take_of_length_le (le_trans hcase hmr)]
        · push_neg at hcase
          have h2 : c.length = m := by omega
          rw [h2]
          conv_rhs => rw [show r = m + (r - m) by omega]
          rw [List.take_add, hc]
      rw [ih (r - c.length) (by omega) (p + c.length) (acc.addData c)]
      rw [← FileDigest.addData_append, hlist]

/-- The digest-comparison condition exactly as claim C1 words it: on the
fast path (fast detection enabled and `indexed.size > 2 ×
IndexingBlockSize`) the digest of the first `header_size` bytes is
compared with `header_digest` and the digest of `tail_size` bytes
starting at `tail_offset` with `tail_digest`; otherwise the digest of
the first `indexed.size` bytes is compared with `full_digest`. -/
def digestsDiffer (file : File) (d : IndexingData) (config : Configuration) :
    Prop :=
  if config.fastModificationDetection = true
      ∧ d.hash.size > 2 * IndexingBlockSize then
    digestBytes (file.contents.take d.hash.headerSize) ≠ d.hash.headerDigest
    ∨ digestBytes ((file.contents.drop d.hash.tailOffset).take d.hash.tailSize)
        ≠ d.hash.tailDigest
  else
    digestBytes (file.contents.take d.hash.size) ≠ d.hash.fullDigest

instance (file : File) (d : IndexingData) (config : Configuration) :
    Decidable (digestsDiffer file d config) := by
  unfold digestsDiffer
  split <;> infer_instance

/-- Claim C1's description of `check_file_changes`: `Truncated` when the
file's size is 0, or smaller than the indexed size, or the file cannot be
opened, or a digest comparison fails; otherwise `DataAdded` when the
file grew and `Unchanged` when the sizes are equal. -/
def checkFileChangesClaim (file : File) (d : IndexingData)
    (config : Configuration) : MonitoredFileStatus :=
  if file.contents.length = 0 ∨ file.contents.length < d.hash.size
      ∨ file.openable = false ∨ digestsDiffer file d config then
    MonitoredFileStatus.Truncated
  else if file.contents.length > d.hash.size then MonitoredFileStatus.DataAdded
  else MonitoredFileStatus.Unchanged


theorem doCheckFileChanges_snd (file : File) (d : IndexingData)
    (config : Configuration) : (doCheckFileChanges file d config).2 = d := by
  unfold doCheckFileChanges
  dsimp only
  repeat' (first | rfl | split)

theorem doCheckFileChanges_eq_claim (file : File) (d : IndexingData)
    (config : Configuration) :
    (doCheckFileChanges file d config).1 = checkFileChangesClaim file d config := by
  unfold doCheckFileChanges checkFileChangesClaim digestsDiffer
  dsimp only
  simp only [getDigestLoop_addData, digestBytes, List.drop_zero]
  by_cases h1 : file.contents.length = 0 ∨ file.contents.length < d.hash.size
  · rw [if_pos h1, if_pos (by tauto)]
  · rw [if_neg h1]
    by_cases h2 : file.openable = true
    · rw [if_neg (by simp [h2])]
      have h2' : ¬(file.openable = false) := by simp [h2]
      by_cases h3 : config.fastModificationDetection = true
          ∧ d.hash.size > 2 * IndexingBlockSize
      · simp only [if_pos h3]
        by_cases h4 : (FileDigest.empty.addData
            (file.contents.take d.hash.headerSize)).digest ≠ d.hash.headerDigest
        · rw [if_pos h4, if_pos (show (true : Bool) = true from rfl),
            if_pos (by tauto)]
        · rw [if_neg h4]
          by_cases h5 : (FileDigest.empty.addData
              ((file.contents.drop d.hash.tailOffset).take d.hash.tailSize)).digest
              ≠ d.hash.tailDigest
          · rw [if_pos (by simpa using h5), if_pos (by tauto)]
          · rw [if_neg (by simpa using h5)]
            by_cases h6 : file.contents.length > d.hash.size
            · rw [if_pos h6, if_neg (by tauto), if_pos h6]
            · rw [if_neg h6, if_neg (by tauto), if_neg h6]
      · simp only [if_neg h3]
        by_cases h5 : (FileDigest.empty.addData
            (file.contents.take d.hash.size)).digest ≠ d.hash.fullDigest
        · rw [if_pos (by simpa using h5), if_pos (by tauto)]
        · rw [if_neg (by simpa using h5)]
          by_cases h6 : file.contents.length > d.hash.size
          · rw [if_pos h6, if_neg (by tauto), if_pos h6]
          · rw [if_neg h6, if_neg (by tauto), if_neg h6]
    · have h2f : file.openable = false := by
        cases hf : file.openable
        · rfl
        · exact absurd hf h2
      rw [if_pos (by simp [h2f]), if_pos (by tauto)]

/-- C1: for every indexed state, file and configuration,
`check_file_changes` returns `Truncated` exactly when the file's size is
0, or smaller than `indexed.size`, or the file cannot be opened, or a
digest comparison fails (header then tail digests on the fast path —
taken exactly when fast detection is enabled and `indexed.size > 2 ×
IndexingBlockSize` — and the full digest of the first `indexed.size`
bytes otherwise); otherwise `DataAdded` when the file grew and
`Unchanged` when the sizes are equal. -/
theorem checkFileChanges_matches_claim (file : File) (d : IndexingData)
    (config : Configuration) :
    (CheckFileChangesOperation.run file d config).1
      = checkFileChangesClaim file d config :=
  doCheckFileChanges_eq_claim file d config

/-- C10: `check_file_changes` never modifies the indexing state — line
positions, max length, every fingerprint field, the encoding guess and
the forced encoding are exactly as before the call. -/
theorem checkFileChanges_frame (file : File) (d : IndexingData)
    (config : Configuration) :
    (CheckFileChangesOperation.run file d config).2.linePosition = d.linePosition
    ∧ (CheckFileChangesOperation.run file d config).2.maxLength = d.maxLength
    ∧ (CheckFileChangesOperation.run file d config).2.hash = d.hash
    ∧ (CheckFileChangesOperation.run file d config).2.hash.size = d.hash.size
    ∧ (CheckFileChangesOperation.run file d config).2.hash.fullDigest
        = d.hash.fullDigest
    ∧ (CheckFileChangesOperation.run file d config).2.hash.headerDigest
        = d.hash.headerDigest
    ∧ (CheckFileChangesOperation.run file d config).2.hash.tailOffset
        = d.hash.tailOffset
    ∧ (CheckFileChangesOperation.run file d config).2.hash.tailSize
        = d.hash.tailSize
    ∧ (CheckFileChangesOperation.run file d config).2.hash.tailDigest
        = d.hash.tailDigest
    ∧ (CheckFileChangesOperation.run file d config).2.encodingGuess
        = d.encodingGuess
    ∧ (CheckFileChangesOperation.run file d config).2.encodingForced
        = d.encodingForced := by
  have h : (CheckFileChangesOperation.run file d config).2 = d :=
    doCheckFileChanges_snd file d config
  rw [h]
  exact ⟨rfl, rfl, rfl, rfl, rfl, rfl, rfl, rfl, rfl, rfl, rfl⟩

/-! ## Characterisation of `addAll`'s fingerprint maintenance -/

/-- Tail-window maintenance of one `addAll` of a non-empty block: the new
block is pushed with the current indexed size as start offset; the
oldest block is popped once — only once — when the sizes then sum to
more than `2 × IndexingBlockSize`; `tailSize` and `tailOffset` summarise
the retained FIFO. -/
theorem addAll_tail (d : IndexingData) (block : List Nat) (length : Int)
    (lp : FastLinePositionArray) (enc : Option QTextCodec)
    (hb : block ≠ []) :
    ((d.addAll block length lp enc).hash.tailBlocks =
        (if tailBlocksSum (d.hash.tailBlocks ++ [(d.hash.size, block)])
            > 2 * IndexingBlockSize then
          (d.hash.tailBlocks ++ [(d.hash.size, block)]).tail
        else d.hash.tailBlocks ++ [(d.hash.size, block)]))
    ∧ (d.addAll block length lp enc).hash.tailSize
        = tailBlocksSum ((d.addAll block length lp enc).hash.tailBlocks)
    ∧ (d.addAll block length lp enc).hash.tailOffset
        = ((((d.addAll block length lp enc).hash.tailBlocks).head?).map
            Prod.fst).getD 0 := by
  have hbe : block.isEmpty = false := by
    cases block
    · exact absurd rfl hb
    · rfl
  unfold IndexingData.addAll
  rw [hbe]
  dsimp only
  refine ⟨rfl, rfl, rfl⟩

/-- Header-window maintenance of one `addAll` of a non-empty block: the
block is pushed (and `headerSize` bumped by its size) only while
`headerSize < IndexingBlockSize`; the window is never trimmed. -/
theorem addAll_header (d : IndexingData) (block : List Nat) (length : Int)
    (lp : FastLinePositionArray) (enc : Option QTextCodec)
    (hb : block ≠ []) :
    ((d.addAll block length lp enc).hash.headerSize =
        if d.hash.headerSize < IndexingBlockSize then
          d.hash.headerSize + block.length
        else d.hash.headerSize)
    ∧ ((d.addAll block length lp enc).hash.headerBlocks =
        if d.hash.headerSize < IndexingBlockSize then
          d.hash.headerBlocks ++ [block]
        else d.hash.headerBlocks) := by
  have hbe : block.isEmpty = false := by
    cases block
    · exact absurd rfl hb
    · rfl
  unfold IndexingData.addAll
  rw [hbe]
  dsimp only
  by_cases hh : d.hash.headerSize < IndexingBlockSize
  · rw [if_pos hh, if_pos hh, if_pos hh]
    exact ⟨rfl, rfl⟩
  · rw [if_neg hh, if_neg hh, if_neg hh]
    exact ⟨rfl, rfl⟩

/-- An `addAll` of an empty block leaves the fingerprints untouched. -/
theorem addAll_empty_hash (d : IndexingData) (length : Int)
    (lp : FastLinePositionArray) (enc : Option QTextCodec) :
    (d.addAll [] length lp enc).hash = d.hash := rfl

/-- One `addAll` of a non-empty block grows the indexed size by the
block's size. -/
theorem addAll_size (d : IndexingData) (block : List Nat) (length : Int)
    (lp : FastLinePositionArray) (enc : Option QTextCodec) :
    (d.addAll block length lp enc).hash.size = d.hash.size + block.length := by
  cases hb : block with
  | nil => simp [IndexingData.addAll]
  | cons x xs =>
    unfold IndexingData.addAll
    dsimp only [List.isEmpty_cons]
    rfl

theorem tailBlocksSum_eq_sum (l : List (Nat × List Nat)) :
    tailBlocksSum l = (l.map (fun b => b.2.length)).sum := by
  suffices h : ∀ init, l.foldl (fun acc b => acc + b.2.length) init
      = init + (l.map (fun b => b.2.length)).sum by
    simpa [tailBlocksSum] using h 0
  induction l with
  | nil => intro init; simp
  | cons x xs ih =>
    intro init
    simp [List.foldl_cons, ih, List.sum_cons]
    omega

theorem tailBlocksSum_append (l1 l2 : List (Nat × List Nat)) :
    tailBlocksSum (l1 ++ l2) = tailBlocksSum l1 + tailBlocksSum l2 := by
  simp [tailBlocksSum_eq_sum]

/-- One call of `AddAll` as data, for reasoning about sequences of
`addAll` invocations. -/
structure AddAllCall where
  block : List Nat
  length : Int
  linePosition : FastLinePositionArray
  encoding : Option QTextCodec

def applyAddAll (d : IndexingData) (c : AddAllCall) : IndexingData :=
  d.addAll c.block c.length c.linePosition c.encoding

theorem headerSize_invariant (calls : List AddAllCall) :
    ∀ d : IndexingData, (∀ c ∈ calls, c.block.length ≤ IndexingBlockSize) →
    d.hash.headerSize < 2 * IndexingBlockSize →
    (calls.foldl applyAddAll d).hash.headerSize < 2 * IndexingBlockSize := by
  induction calls with
  | nil => intro d _ hd; simpa using hd
  | cons c cs ih =>
    intro d hc hd
    rw [List.foldl_cons]
    refine ih (applyAddAll d c) (fun x hx => hc x (List.mem_cons_of_mem c hx)) ?_
    have hcb : c.block.length ≤ IndexingBlockSize := hc c (List.mem_cons_self c cs)
    by_cases hb : c.block = []
    · unfold applyAddAll
      rw [hb, addAll_empty_hash]
      exact hd
    · unfold applyAddAll
      rw [(addAll_header d c.block c.length c.linePosition c.encoding hb).1]
      split
      · next hlt => omega
      · exact hd

/-- C4 (amended): a block is pushed onto the header window only while
`header_size < IndexingBlockSize` (with `header_size` bumped by the whole
block), the window is never trimmed, and therefore after any sequence of
`add_all` calls with blocks of at most `IndexingBlockSize` starting from
the empty state, `header_size` stays below `2 × IndexingBlockSize` — it
can exceed `IndexingBlockSize` itself. -/
theorem headerWindow_props (calls : List AddAllCall)
    (hc : ∀ c ∈ calls, c.block.length ≤ IndexingBlockSize) :
    (calls.foldl applyAddAll IndexingData.empty).hash.headerSize
        < 2 * IndexingBlockSize
    ∧ (∀ (d : IndexingData) (block : List Nat) (length : Int)
        (lp : FastLinePositionArray) (enc : Option QTextCodec), block ≠ [] →
        (IndexingBlockSize ≤ d.hash.headerSize →
          (d.addAll block length lp enc).hash.headerBlocks = d.hash.headerBlocks
          ∧ (d.addAll block length lp enc).hash.headerSize = d.hash.headerSize)
        ∧ (d.hash.headerSize < IndexingBlockSize →
          (d.addAll block length lp enc).hash.headerBlocks
              = d.hash.headerBlocks ++ [block]
          ∧ (d.addAll block length lp enc).hash.headerSize
              = d.hash.headerSize + block.length)) := by
  constructor
  · exact headerSize_invariant calls IndexingData.empty hc (by decide)
  · intro d block length lp enc hb
    have h := addAll_header d block length lp enc hb
    constructor
    · intro hge
      have hnlt : ¬ d.hash.headerSize < IndexingBlockSize := by omega
      rw [h.1, h.2, if_neg hnlt, if_neg hnlt]
      exact ⟨rfl, rfl⟩
    · intro hlt
      rw [h.1, h.2, if_pos hlt, if_pos hlt]
      exact ⟨rfl, rfl⟩

theorem headerWindow_props_witness :
    (∀ c ∈ [AddAllCall.mk [7] 0 {} none],
        c.block.length ≤ IndexingBlockSize)
    ∧ ([AddAllCall.mk [7] 0 {} none].foldl applyAddAll
        IndexingData.empty).hash.headerSize < 2 * IndexingBlockSize := by
  constructor
  · decide
  · exact (headerWindow_props [AddAllCall.mk [7] 0 {} none] (by decide)).1

/-- C4 counterexample: two `add_all` calls — a 1-byte block then a full
1 MiB block — leave `header_size = IndexingBlockSize + 1`, so the claim
`header_size ≤ IndexingBlockSize` is false (the push condition is
checked before adding, and adds the whole block). -/
theorem headerWindow_cex :
    IndexingBlockSize <
      ((IndexingData.empty.addAll [7] 0 {} none).addAll
        (List.replicate IndexingBlockSize 0) 0 {} none).hash.headerSize := by
  have h1 := (addAll_header IndexingData.empty [7] 0 {} none (by decide)).1
  have hs1 : (IndexingData.empty.addAll [7] 0 {} none).hash.headerSize = 1 := by
    rw [h1, if_pos (by decide)]
    rfl
  have h2 := (addAll_header (IndexingData.empty.addAll [7] 0 {} none)
    (List.replicate IndexingBlockSize 0) 0 {} none
    (List.ne_nil_of_length_pos
      (by rw [List.length_replicate]; norm_num [IndexingBlockSize]))).1
  rw [h2, hs1, if_pos (by norm_num [IndexingBlockSize]),
    List.length_replicate]
  omega

theorem addAll_tail_no_pop (d : IndexingData) (block : List Nat) (length : Int)
    (lp : FastLinePositionArray) (enc : Option QTextCodec) (hb : block ≠ [])
    (hle : tailBlocksSum d.hash.tailBlocks + block.length
      ≤ 2 * IndexingBlockSize) :
    (d.addAll block length lp enc).hash.tailBlocks
      = d.hash.tailBlocks ++ [(d.hash.size, block)] := by
  rw [(addAll_tail d block length lp enc hb).1, if_neg]
  rw [tailBlocksSum_append]
  simp only [tailBlocksSum_eq_sum, List.map_cons, List.map_nil, List.sum_cons,
    List.sum_nil] at *
  omega

theorem addAll_tail_pop (d : IndexingData) (block : List Nat) (length : Int)
    (lp : FastLinePositionArray) (enc : Option QTextCodec) (hb : block ≠ [])
    (hgt : 2 * IndexingBlockSize
      < tailBlocksSum d.hash.tailBlocks + block.length) :
    (d.addAll block length lp enc).hash.tailBlocks
      = (d.hash.tailBlocks ++ [(d.hash.size, block)]).tail := by
  rw [(addAll_tail d block length lp enc hb).1, if_pos]
  rw [tailBlocksSum_append]
  simp only [tailBlocksSum_eq_sum, List.map_cons, List.map_nil, List.sum_cons,
    List.sum_nil] at *
  omega

/-- C3 (amended): after every `add_all` of a non-empty block, `tail_size`
equals the sum of the sizes of the retained tail blocks and `tail_offset`
equals the start offset of the oldest retained tail block; the
maintenance step pops the oldest block at most once — only when the
pushed sum exceeds `2 × IndexingBlockSize` — so the retained sum stays
within `2 × IndexingBlockSize` only when the previous sum plus the new
block's size does. -/
theorem tailWindow_props (d : IndexingData) (block : List Nat) (length : Int)
    (lp : FastLinePositionArray) (enc : Option QTextCodec) (hb : block ≠ []) :
    (d.addAll block length lp enc).hash.tailSize
        = tailBlocksSum ((d.addAll block length lp enc).hash.tailBlocks)
    ∧ (∀ hd, ((d.addAll block length lp enc).hash.tailBlocks).head? = some hd →
        (d.addAll block length lp enc).hash.tailOffset = hd.1)
    ∧ ((d.addAll block length lp enc).hash.tailBlocks
          = d.hash.tailBlocks ++ [(d.hash.size, block)]
      ∨ (d.addAll block length lp enc).hash.tailBlocks
          = (d.hash.tailBlocks ++ [(d.hash.size, block)]).tail)
    ∧ (tailBlocksSum d.hash.tailBlocks + block.length ≤ 2 * IndexingBlockSize →
        (d.addAll block length lp enc).hash.tailSize
          ≤ 2 * IndexingBlockSize) := by
  have h := addAll_tail d block length lp enc hb
  refine ⟨h.2.1, ?_, ?_, ?_⟩
  · intro hd hhd
    rw [h.2.2, hhd]
    rfl
  · rw [h.1]
    split
    · exact Or.inr rfl
    · exact Or.inl rfl
  · intro hle
    rw [h.2.1, addAll_tail_no_pop d block length lp enc hb hle,
      tailBlocksSum_append]
    simpa [tailBlocksSum_eq_sum] using hle

theorem tailWindow_props_witness :
    ([7] : List Nat) ≠ [] ∧
    ((IndexingData.empty.addAll [7] 0 {} none).hash.tailSize
        = tailBlocksSum ((IndexingData.empty.addAll [7] 0 {} none).hash.tailBlocks)
    ∧ (∀ hd, ((IndexingData.empty.addAll [7] 0 {} none).hash.tailBlocks).head?
          = some hd →
        (IndexingData.empty.addAll [7] 0 {} none).hash.tailOffset = hd.1)
    ∧ ((IndexingData.empty.addAll [7] 0 {} none).hash.tailBlocks
          = IndexingData.empty.hash.tailBlocks
            ++ [(IndexingData.empty.hash.size, [7])]
      ∨ (IndexingData.empty.addAll [7] 0 {} none).hash.tailBlocks
          = (IndexingData.empty.hash.tailBlocks
            ++ [(IndexingData.empty.hash.size, [7])]).tail)
    ∧ (tailBlocksSum IndexingData.empty.hash.tailBlocks + ([7] : List Nat).length
          ≤ 2 * IndexingBlockSize →
        (IndexingData.empty.addAll [7] 0 {} none).hash.tailSize
          ≤ 2 * IndexingBlockSize)) :=
  ⟨by decide, tailWindow_props IndexingData.empty [7] 0 {} none (by decide)⟩

/-- C3 counterexample: four reader-sized `add_all` calls (1 byte, 1 MiB,
1 MiB − 1, 1 MiB) leave the tail window holding `3 × IndexingBlockSize −
1` bytes: the single pop of the 1-byte oldest block does not bring the
sum back under `2 × IndexingBlockSize`. -/
theorem tailWindow_cex :
    2 * IndexingBlockSize <
      ((((IndexingData.empty.addAll [7] 0 {} none).addAll
          (List.replicate IndexingBlockSize 0) 0 {} none).addAll
          (List.replicate (IndexingBlockSize - 1) 0) 0 {} none).addAll
          (List.replicate IndexingBlockSize 0) 0 {} none).hash.tailSize := by
  have hB1 : List.replicate IndexingBlockSize (0:Nat) ≠ [] :=
    List.ne_nil_of_length_pos
      (by rw [List.length_replicate]; norm_num [IndexingBlockSize])
  have hB3 : List.replicate (IndexingBlockSize - 1) (0:Nat) ≠ [] :=
    List.ne_nil_of_length_pos
      (by rw [List.length_replicate]; norm_num [IndexingBlockSize])
  have t0 : IndexingData.empty.hash.tailBlocks = [] := rfl
  have t1 : (IndexingData.empty.addAll [7] 0 {} none).hash.tailBlocks
      = [(IndexingData.empty.hash.size, [7])] := by
    rw [addAll_tail_no_pop IndexingData.empty [7] 0 {} none (by decide) ?_, t0,
      List.nil_append]
    rw [t0]
    simp [tailBlocksSum_eq_sum, IndexingBlockSize]
  have t2 : ((IndexingData.empty.addAll [7] 0 {} none).addAll
      (List.replicate IndexingBlockSize 0) 0 {} none).hash.tailBlocks
      = [(IndexingData.empty.hash.size, [7]),
         ((IndexingData.empty.addAll [7] 0 {} none).hash.size,
           List.replicate IndexingBlockSize 0)] := by
    rw [addAll_tail_no_pop _ _ _ _ _ hB1 ?_, t1]
    · rfl
    rw [t1]
    simp [tailBlocksSum_eq_sum, List.length_replicate]
    norm_num [IndexingBlockSize]
  have t3 : (((IndexingData.empty.addAll [7] 0 {} none).addAll
      (List.replicate IndexingBlockSize 0) 0 {} none).addAll
      (List.replicate (IndexingBlockSize - 1) 0) 0 {} none).hash.tailBlocks
      = [(IndexingData.empty.hash.size, [7]),
         ((IndexingData.empty.addAll [7] 0 {} none).hash.size,
           List.replicate IndexingBlockSize 0),
         (((IndexingData.empty.addAll [7] 0 {} none).addAll
             (List.replicate IndexingBlockSize 0) 0 {} none).hash.size,
           List.replicate (IndexingBlockSize - 1) 0)] := by
    rw [addAll_tail_no_pop _ _ _ _ _ hB3 ?_, t2]
    · rfl
    rw [t2]
    simp [tailBlocksSum_eq_sum, List.length_replicate]
    norm_num [IndexingBlockSize]
  have t4 : ((((IndexingData.empty.addAll [7] 0 {} none).addAll
      (List.replicate IndexingBlockSize 0) 0 {} none).addAll
      (List.replicate (IndexingBlockSize - 1) 0) 0 {} none).addAll
      (List.replicate IndexingBlockSize 0) 0 {} none).hash.tailBlocks
      = [((IndexingData.empty.addAll [7] 0 {} none).hash.size,
           List.replicate IndexingBlockSize 0),
         (((IndexingData.empty.addAll [7] 0 {} none).addAll
             (List.replicate IndexingBlockSize 0) 0 {} none).hash.size,
           List.replicate (IndexingBlockSize - 1) 0),
         ((((IndexingData.empty.addAll [7] 0 {} none).addAll
             (List.replicate IndexingBlockSize 0) 0 {} none).addAll
             (List.replicate (IndexingBlockSize - 1) 0) 0 {} none).hash.size,
           List.replicate IndexingBlockSize 0)] := by
    rw [addAll_tail_pop _ _ _ _ _ hB1 ?_, t3]
    · rfl
    rw [t3]
    simp [tailBlocksSum_eq_sum, List.length_replicate]
    norm_num [IndexingBlockSize]
  rw [(addAll_tail _ _ _ _ _ hB1).2.1, t4]
  simp [tailBlocksSum_eq_sum, List.length_replicate]
  norm_num [IndexingBlockSize]

/-! ## Driver-level error handling -/

/-- C5: if the interrupt flag is set during a full index, the driver
clears the indexing state after the pipeline drains — the final state
has `nb_lines = 0` and `indexed_size = 0` — and the operation finishes
with `Interrupted` (`indexingFinished(false)`). -/
theorem interrupt_clears_index (file : File) (forced : Option QTextCodec)
    (d : IndexingData) (intrAt failAt : Option Nat)
    (h : intrAt.isSome = true) :
    (FullIndexOperation.run file forced d intrAt failAt).1 = false
    ∧ (FullIndexOperation.run file forced d intrAt failAt).2.1.getNbLines = 0
    ∧ (FullIndexOperation.run file forced d intrAt failAt).2.1.getIndexedSize
        = 0 := by
  cases intrAt with
  | none => simp at h
  | some j =>
    by_cases ho : file.openable = true
    · simp [FullIndexOperation.run, doIndex, indexFinalize, ho,
        IndexingData.clear, IndexingData.setEncodingGuess,
        IndexingData.getNbLines, IndexingData.getIndexedSize]
    · simp [FullIndexOperation.run, doIndex, indexFinalize, ho,
        IndexingData.clear, IndexingData.setEncodingGuess,
        IndexingData.getNbLines, IndexingData.getIndexedSize]

theorem interrupt_clears_index_witness :
    ((some 0 : Option Nat).isSome = true)
    ∧ ((FullIndexOperation.run ⟨[97, 10], true⟩ none IndexingData.empty
        (some 0) none).1 = false
    ∧ (FullIndexOperation.run ⟨[97, 10], true⟩ none IndexingData.empty
        (some 0) none).2.1.getNbLines = 0
    ∧ (FullIndexOperation.run ⟨[97, 10], true⟩ none IndexingData.empty
        (some 0) none).2.1.getIndexedSize = 0) :=
  ⟨rfl, interrupt_clears_index ⟨[97, 10], true⟩ none IndexingData.empty
    (some 0) none rfl⟩

/-- C8: an indexing operation on an unopenable file clears the index,
records the platform default codec as the encoding guess, emits
`progress(100)` and terminates with `Successful`; `check_file_changes`
on an unopenable file returns `Truncated`. -/
theorem unopenable_file_behaviour (file : File) (h : file.openable = false)
    (forced : Option QTextCodec) (d dp dc : IndexingData)
    (failAt : Option Nat) (config : Configuration) :
    FullIndexOperation.run file forced d none failAt
      = (true, IndexingData.empty.setEncodingGuess (some codecForLocale),
         [0, 100])
    ∧ PartialIndexOperation.run file dp none failAt
      = (true, IndexingData.empty.setEncodingGuess (some codecForLocale),
         [0, 100])
    ∧ (CheckFileChangesOperation.run file dc config).1
      = MonitoredFileStatus.Truncated := by
  have ho : ¬(file.openable = true) := by simp [h]
  refine ⟨?_, ?_, ?_⟩
  · simp [FullIndexOperation.run, doIndex, ho, IndexingData.clear,
      IndexingData.empty]
  · simp [PartialIndexOperation.run, doIndex, ho, IndexingData.clear,
      IndexingData.empty]
  · show (doCheckFileChanges file dc config).1 = MonitoredFileStatus.Truncated
    rw [doCheckFileChanges_eq_claim]
    unfold checkFileChangesClaim
    rw [if_pos (by tauto)]

theorem unopenable_file_behaviour_witness :
    ((⟨[5, 6], false⟩ : File).openable = false)
    ∧ (FullIndexOperation.run ⟨[5, 6], false⟩ none IndexingData.empty none none
      = (true, IndexingData.empty.setEncodingGuess (some codecForLocale),
         [0, 100])
    ∧ PartialIndexOperation.run ⟨[5, 6], false⟩ IndexingData.empty none none
      = (true, IndexingData.empty.setEncodingGuess (some codecForLocale),
         [0, 100])
    ∧ (CheckFileChangesOperation.run ⟨[5, 6], false⟩ IndexingData.empty
        ⟨true, 4⟩).1 = MonitoredFileStatus.Truncated) :=
  ⟨rfl, unopenable_file_behaviour ⟨[5, 6], false⟩ rfl none IndexingData.empty
    IndexingData.empty IndexingData.empty none ⟨true, 4⟩⟩

/-- Total byte count of a block list. -/
def chunksBytes (l : List (Int × List Nat)) : Nat :=
  (l.map (fun c => c.2.length)).sum

theorem chunksBytes_append (l1 l2 : List (Int × List Nat)) :
    chunksBytes (l1 ++ l2) = chunksBytes l1 + chunksBytes l2 := by
  simp [chunksBytes]

/-- One parser-node step grows the indexed size by the block's bytes
(the sentinel carries none). -/
theorem processBlock_hash_size (d : IndexingData) (st : IndexingState)
    (progs : List Int) (bb : Int) (blk : List Nat)
    (h : 0 ≤ bb ∨ blk = []) :
    ((processBlock (d, st, progs) (bb, blk)).1).hash.size
      = d.hash.size + blk.length := by
  unfold processBlock
  dsimp only
  by_cases hbb : bb < 0
  · rw [if_pos hbb]
    rcases h with h | h
    · exact absurd hbb (by omega)
    · simp [h]
  · rw [if_neg hbb]
    by_cases hb : blk.isEmpty = true
    · rw [if_pos hb]
      have hnil : blk = [] := by
        cases hc2 : blk with
        | nil => rfl
        | cons x xs => rw [hc2] at hb; simp at hb
      simp [IndexingData.setEncodingGuess, hnil]
    · rw [if_neg hb]
      dsimp only
      rw [addAll_size]

/-- Folding the parser over blocks grows the indexed size by exactly the
bytes of the processed blocks (sentinels carry none). -/
theorem fold_hash_size (chunks : List (Int × List Nat)) :
    ∀ (d : IndexingData) (st : IndexingState) (progs : List Int),
    (∀ c ∈ chunks, 0 ≤ c.1 ∨ c.2 = []) →
    ((chunks.foldl processBlock (d, st, progs)).1).hash.size
      = d.hash.size + chunksBytes chunks := by
  induction chunks with
  | nil => intro d st progs _; simp [chunksBytes]
  | cons c cs ih =>
    intro d st progs hc
    obtain ⟨bb, blk⟩ := c
    rw [List.foldl_cons]
    have h1 := processBlock_hash_size d st progs bb blk
      (hc (bb, blk) (List.mem_cons_self _ _))
    rcases hpb : processBlock (d, st, progs) (bb, blk) with ⟨d1, st1, progs1⟩
    rw [hpb] at h1
    have h2 := ih d1 st1 progs1
      (fun x hx => hc x (List.mem_cons_of_mem (bb, blk) hx))
    rw [h2]
    dsimp only at h1
    rw [h1]
    simp [chunksBytes]
    omega

/-- With a stop after `j` reads, the reader emits exactly the first `j`
blocks of the unrestricted run. -/
theorem readChunks_stop (contents : List Nat) :
    ∀ p j, readChunks contents p (some j)
      = (readChunks contents p none).take j := by
  have main : ∀ n p j, contents.length - p ≤ n →
      readChunks contents p (some j)
        = (readChunks contents p none).take j := by
    intro n
    induction n with
    | zero =>
      intro p j hn
      rw [readChunks.eq_def, readChunks.eq_def]
      rw [dif_pos (Or.inl (by omega))]
      rw [dif_pos (Or.inl (by omega))]
      simp
    | succ n ih =>
      intro p j hn
      by_cases hend : contents.length ≤ p
      · rw [readChunks.eq_def, readChunks.eq_def]
        rw [dif_pos (Or.inl hend), dif_pos (Or.inl hend)]
        simp
      · cases j with
        | zero =>
          rw [readChunks.eq_def]
          rw [dif_pos (Or.inr rfl)]
          simp
        | succ j' =>
          rw [readChunks.eq_def]
          rw [dif_neg (by simp [hend])]
          conv_rhs => rw [readChunks.eq_def]
          rw [dif_neg (by simp [hend])]
          dsimp only
          simp only [Option.map_some', Option.map_none', Nat.add_sub_cancel]
          rw [List.take_succ_cons]
          have hcl : 0 < ((contents.drop p).take IndexingBlockSize).length := by
            have hB : 0 < IndexingBlockSize := by norm_num [IndexingBlockSize]
            simp [List.length_take, List.length_drop]
            omega
          have := ih (p + ((contents.drop p).take IndexingBlockSize).length) j'
            (by omega)
          rw [← this]
  intro p j
  exact main (contents.length - p) p j (le_refl _)

/-- Every block the reader emits carries a non-negative file offset. -/
theorem readChunks_nonneg (contents : List Nat) :
    ∀ p stop, ∀ c ∈ readChunks contents p stop, 0 ≤ c.1 ∨ c.2 = [] := by
  have main : ∀ n p stop, contents.length - p ≤ n →
      ∀ c ∈ readChunks contents p stop, 0 ≤ c.1 ∨ c.2 = [] := by
    intro n
    induction n with
    | zero =>
      intro p stop hn c hc
      rw [readChunks.eq_def, dif_pos (Or.inl (by omega))] at hc
      simp at hc
    | succ n ih =>
      intro p stop hn c hc
      rw [readChunks.eq_def] at hc
      split at hc
      · simp at hc
      · next hcond =>
        push_neg at hcond
        rcases List.mem_cons.mp hc with hh | ht
        · left
          rw [hh]
          exact Int.ofNat_nonneg p
        · have hcl : 0 < ((contents.drop p).take IndexingBlockSize).length := by
            have hB : 0 < IndexingBlockSize := by norm_num [IndexingBlockSize]
            simp [List.length_take, List.length_drop]
            omega
          exact ih (p + ((contents.drop p).take IndexingBlockSize).length) _
            (by omega) c ht
  intro p stop
  exact main (contents.length - p) p stop (le_refl _)

/-- Without interrupt, the driver tail of `doIndex` preserves the indexed
size (the fake final line feed is an empty block; the fallback guess
does not touch the hash). -/
theorem indexFinalize_hash_size (folded : IndexingData × IndexingState × List Int) :
    ((indexFinalize folded none).1).hash.size = folded.1.hash.size := by
  unfold indexFinalize
  dsimp only
  repeat' split
  all_goals simp_all [IndexingData.setEncodingGuess, addAll_empty_hash,
    IndexingData.clear]

/-- C9 (read failure): when `read()` fails at the `j`-th read of a full
index, the reader stops emitting — the blocks delivered are exactly the
first `j` of the unrestricted run — the partial index accumulated from
them is retained (the final indexed size equals their total bytes;
nothing is cleared), and the operation completes with `Successful` since
the cancellation flag is clear. -/
theorem readFailure_retains (file : File) (hopen : file.openable = true)
    (forced : Option QTextCodec) (d : IndexingData) (j : Nat) :
    (FullIndexOperation.run file forced d none (some j)).1 = true
    ∧ readChunks file.contents 0 (stopCount none (some j))
        = (readChunks file.contents 0 none).take j
    ∧ (FullIndexOperation.run file forced d none (some j)).2.1.hash.size
        = chunksBytes ((readChunks file.contents 0 none).take j) := by
  refine ⟨rfl, readChunks_stop file.contents 0 j, ?_⟩
  show ((doIndex file 0 ((d.clear).forceEncoding forced) none (some j)).1).hash.size = _
  unfold doIndex
  rw [if_neg (by simp [hopen])]
  dsimp only
  rw [indexFinalize_hash_size]
  have hmem : ∀ c ∈ readChunks file.contents 0 (stopCount none (some j))
      ++ [((-1 : Int), ([] : List Nat))], 0 ≤ c.1 ∨ c.2 = [] := by
    intro c hc
    rcases List.mem_append.mp hc with h | h
    · exact readChunks_nonneg file.contents 0 _ c h
    · right
      simp only [List.mem_singleton] at h
      rw [h]
  rw [fold_hash_size _ _ _ _ hmem]
  rw [chunksBytes_append]
  have hclear : ((d.clear).forceEncoding forced).hash.size = 0 := rfl
  rw [hclear]
  have hsent : chunksBytes [((-1 : Int), ([] : List Nat))] = 0 := rfl
  rw [hsent]
  have : stopCount none (some j) = some j := rfl
  rw [this, readChunks_stop file.contents 0 j]
  omega

theorem readFailure_retains_witness :
    ((⟨[97, 10, 98], true⟩ : File).openable = true)
    ∧ ((FullIndexOperation.run ⟨[97, 10, 98], true⟩ none IndexingData.empty
        none (some 1)).1 = true
    ∧ readChunks [97, 10, 98] 0 (stopCount none (some 1))
        = (readChunks [97, 10, 98] 0 none).take 1
    ∧ (FullIndexOperation.run ⟨[97, 10, 98], true⟩ none IndexingData.empty
        none (some 1)).2.1.hash.size
        = chunksBytes ((readChunks [97, 10, 98] 0 none).take 1)) :=
  ⟨rfl, readFailure_retains ⟨[97, 10, 98], true⟩ rfl none IndexingData.empty 1⟩

/-! ## Pure characterisation of the scan: line-feed positions -/

/-- The indices in `[s, e)` at which the byte list holds a line feed
(byte 10), in increasing order. -/
def lfsB (F : List Nat) (s e : Nat) : List Nat :=
  if _h : e ≤ s then []
  else (if F.getD s 0 = 10 then [s] else []) ++ lfsB F (s + 1) e
termination_by e - s
decreasing_by omega

theorem lfsB_of_ge {F : List Nat} {s e : Nat} (h : e ≤ s) :
    lfsB F s e = [] := by
  rw [lfsB.eq_def, dif_pos h]

theorem lfsB_mem {F : List Nat} :
    ∀ {s e k : Nat}, k ∈ lfsB F s e → s ≤ k ∧ k < e ∧ F.getD k 0 = 10 := by
  have main : ∀ n s e k, e - s ≤ n → k ∈ lfsB F s e →
      s ≤ k ∧ k < e ∧ F.getD k 0 = 10 := by
    intro n
    induction n with
    | zero =>
      intro s e k hn hk
      rw [lfsB_of_ge (by omega)] at hk
      simp at hk
    | succ n ih =>
      intro s e k hn hk
      by_cases hse : e ≤ s
      · rw [lfsB_of_ge hse] at hk; simp at hk
      · rw [lfsB.eq_def, dif_neg hse] at hk
        rcases List.mem_append.mp hk with hh | ht
        · split at hh
          · next hlf =>
            simp at hh
            subst hh
            exact ⟨le_refl _, by omega, hlf⟩
          · simp at hh
        · have := ih (s + 1) e k (by omega) ht
          exact ⟨by omega, this.2.1, this.2.2⟩
  intro s e k hk
  exact main (e - s) s e k (le_refl _) hk

theorem lfsB_glue {F : List Nat} :
    ∀ {s m e : Nat}, s ≤ m → m ≤ e →
      lfsB F s m ++ lfsB F m e = lfsB F s e := by
  have main : ∀ n s m e, m - s ≤ n → s ≤ m → m ≤ e →
      lfsB F s m ++ lfsB F m e = lfsB F s e := by
    intro n
    induction n with
    | zero =>
      intro s m e hn hsm hme
      have : m = s := by omega
      subst this
      rw [lfsB_of_ge (le_refl _), List.nil_append]
    | succ n ih =>
      intro s m e hn hsm hme
      by_cases hms : m ≤ s
      · have : m = s := by omega
        subst this
        rw [lfsB_of_ge (le_refl _), List.nil_append]
      · rw [lfsB.eq_def (F := F) (s := s) (e := m), dif_neg (by omega)]
        rw [lfsB.eq_def (F := F) (s := s) (e := e), dif_neg (by omega)]
        rw [List.append_assoc, ih (s + 1) m e (by omega) (by omega) hme]
  intro s m e hsm hme
  exact main (m - s) s m e (le_refl _) hsm hme

theorem memchr_none_lfsB {block : List Nat} :
    ∀ {s : Nat}, memchr 10 block s (block.length - s) = none →
      lfsB block s block.length = [] := by
  have main : ∀ n s, block.length - s ≤ n →
      memchr 10 block s (block.length - s) = none →
      lfsB block s block.length = [] := by
    intro n
    induction n with
    | zero =>
      intro s hn _
      exact lfsB_of_ge (by omega)
    | succ n ih =>
      intro s hn hm
      by_cases hse : block.length ≤ s
      · exact lfsB_of_ge hse
      · have hcnt : block.length - s = (block.length - (s + 1)) + 1 := by omega
        rw [hcnt, memchr] at hm
        have hget : ∃ b, block.get? s = some b := by
          rw [List.get?_eq_getElem?]
          exact ⟨_, List.getElem?_eq_getElem (by omega)⟩
        obtain ⟨b, hb⟩ := hget
        rw [hb] at hm
        dsimp only at hm
        by_cases hbc : b = 10
        · rw [if_pos hbc] at hm
          simp at hm
        · rw [if_neg hbc] at hm
          have hrec := ih (s + 1) (by omega) hm
          rw [lfsB.eq_def, dif_neg hse]
          have hgd : block.getD s 0 = b := by
            simp only [List.getD]
            rw [hb]
            rfl
          rw [hgd, if_neg hbc, List.nil_append]
          exact hrec
  intro s hm
  exact main (block.length - s) s (le_refl _) hm

theorem memchr_some_lfsB {block : List Nat} :
    ∀ {s k : Nat}, memchr 10 block s (block.length - s) = some k →
      lfsB block s block.length = k :: lfsB block (k + 1) block.length := by
  have main : ∀ n s k, block.length - s ≤ n →
      memchr 10 block s (block.length - s) = some k →
      lfsB block s block.length = k :: lfsB block (k + 1) block.length := by
    intro n
    induction n with
    | zero =>
      intro s k hn hm
      have : block.length - s = 0 := by omega
      rw [this, memchr] at hm
      exact absurd hm (by simp)
    | succ n ih =>
      intro s k hn hm
      by_cases hse : block.length ≤ s
      · rw [show block.length - s = 0 by omega, memchr] at hm
        exact absurd hm (by simp)
      · have hcnt : block.length - s = (block.length - (s + 1)) + 1 := by omega
        rw [hcnt, memchr] at hm
        have hget : ∃ b, block.get? s = some b := by
          rw [List.get?_eq_getElem?]
          exact ⟨_, List.getElem?_eq_getElem (by omega)⟩
        obtain ⟨b, hb⟩ := hget
        rw [hb] at hm
        dsimp only at hm
        have hgd : block.getD s 0 = b := by
          simp only [List.getD]
          rw [hb]
          rfl
        by_cases hbc : b = 10
        · rw [if_pos hbc] at hm
          simp at hm
          subst hm
          rw [lfsB.eq_def, dif_neg hse, hgd, if_pos hbc]
          rfl
        · rw [if_neg hbc] at hm
          have hrec := ih (s + 1) k (by omega) hm
          rw [lfsB.eq_def, dif_neg hse, hgd, if_neg hbc, List.nil_append]
          exact hrec
  intro s k hm
  exact main (block.length - s) s k (le_refl _) hm

set_option maxHeartbeats 1000000 in
/-- The scan loop with default encoding parameters `(1, 0)` emits
exactly one line start `bb + k + 1` per line feed at block index `k` at
or after the initial scan position, advances `pos` past the last line
feed found, and leaves the codec-related state untouched. -/
theorem parseLoop_spec :
    ∀ (fuel : Nat) (bb : Int) (block : List Nat) (st : IndexingState)
      (acc : List Int),
    st.encodingParams = ⟨1, 0⟩ →
    max (st.pos - bb) 0 ≤ (block.length : Int) →
    (block.length : Int) - max (st.pos - bb) 0 < (fuel : Int) →
    ((parseLoop bb block fuel st acc).2
        = acc ++ (lfsB block (max (st.pos - bb) 0).toNat block.length).map
            (fun k : Nat => bb + (k : Int) + 1))
    ∧ ((parseLoop bb block fuel st acc).1.pos
        = (lfsB block (max (st.pos - bb) 0).toNat block.length).foldl
            (fun (_ : Int) (k : Nat) => bb + (k : Int) + 1) st.pos)
    ∧ (parseLoop bb block fuel st acc).1.encodingParams = st.encodingParams
    ∧ (parseLoop bb block fuel st acc).1.file_size = st.file_size
    ∧ (parseLoop bb block fuel st acc).1.encodingGuess = st.encodingGuess
    ∧ (parseLoop bb block fuel st acc).1.fileTextCodec = st.fileTextCodec := by
  intro fuel
  induction fuel with
  | zero =>
    intro bb block st acc hp hle hfuel
    exfalso
    omega
  | succ fuel ih =>
    intro bb block st acc hp hle hfuel
    simp only [parseLoop]
    by_cases hsz : ((block.length : Int) - max (st.pos - bb) 0) > 0
    · rw [if_pos hsz]
      have hcnt : ((block.length : Int) - max (st.pos - bb) 0).toNat
          = block.length - (max (st.pos - bb) 0).toNat := by omega
      rw [hcnt]
      rcases hm : memchr 10 block (max (st.pos - bb) 0).toNat
          (block.length - (max (st.pos - bb) 0).toNat) with _ | k
      · dsimp only
        rw [memchr_none_lfsB hm]
        simp
      · dsimp only
        have hkb := memchr_bounds hm
        have hpw : ((st.pos - bb) ⊔ 0).toNat ≤ k := hkb.1
        have hklen : k < block.length := hkb.2
        have htn : ((((st.pos - bb) ⊔ 0).toNat : Nat) : Int) = (st.pos - bb) ⊔ 0 :=
          Int.toNat_of_nonneg (le_max_right _ _)
        rw [hp]
        dsimp only
        rw [if_neg (by omega)]
        rw [memchr_some_lfsB hm]
        have hih := ih bb block
          { pos := (k : Int) - 0 + bb + 1
            endPos := (k : Int) - 0 + bb
            file_size := st.file_size
            max_length := max st.max_length
              ((k : Int) - 0 + bb - st.pos
                + expandTabsLoop bb st.pos 0 block
                    (max (st.pos - bb) 0).toNat
                    ((k : Int) - max (st.pos - bb) 0)
                    st.additional_spaces)
            additional_spaces := 0
            encodingGuess := st.encodingGuess
            fileTextCodec := st.fileTextCodec
            encodingParams := ⟨1, 0⟩ }
          (acc ++ [(k : Int) - 0 + bb + 1]) rfl ?_ ?_
        · have hmax : max ((k : Int) - 0 + bb + 1 - bb) 0 = (k : Int) + 1 := by
            omega
          rw [hmax] at hih
          have htn2 : ((k : Int) + 1).toNat = k + 1 := by omega
          rw [htn2] at hih
          dsimp only at hih
          have heq : (k : Int) - 0 + bb + 1 = bb + (k : Int) + 1 := by ring
          rw [heq] at hih ⊢
          refine ⟨?_, ?_, hih.2.2.1, hih.2.2.2.1, hih.2.2.2.2.1,
            hih.2.2.2.2.2⟩
          · rw [hih.1, List.map_cons, List.append_assoc, List.singleton_append]
          · rw [hih.2.1, List.foldl_cons]
        · dsimp only
          have h1 : ((k : Int) - 0 + bb + 1 - bb) = (k : Int) + 1 := by ring
          rw [h1]
          have h2 : ((k : Int) + 1) ⊔ 0 = (k : Int) + 1 :=
            max_eq_left (by positivity)
          rw [h2]
          exact_mod_cast hklen
        · dsimp only
          have h1 : ((k : Int) - 0 + bb + 1 - bb) = (k : Int) + 1 := by ring
          rw [h1]
          have h2 : ((k : Int) + 1) ⊔ 0 = (k : Int) + 1 :=
            max_eq_left (by positivity)
          rw [h2]
          have h3 : (st.pos - bb) ⊔ 0 ≤ (k : Int) := by
            rw [← htn]
            exact_mod_cast hpw
          push_cast at hfuel
          linarith [hfuel, h3]
    · rw [if_neg hsz]
      have hge : block.length ≤ (max (st.pos - bb) 0).toNat := by omega
      rw [lfsB_of_ge hge]
      simp

/-- `parseDataBlock` under default encoding parameters, entered with the
scan position at or before the block start: the emitted line starts are
`bb + k + 1` for the line feeds at block indices `k`, and the state
advances past the last of them. -/
theorem parseDataBlock_spec (bb : Int) (block : List Nat)
    (st : IndexingState) (hp : st.encodingParams = ⟨1, 0⟩)
    (hpos : st.pos ≤ bb) :
    ((parseDataBlock bb block st).1
        = ⟨(lfsB block 0 block.length).map (fun k : Nat => bb + (k : Int) + 1),
           false⟩)
    ∧ ((parseDataBlock bb block st).2.pos
        = (lfsB block 0 block.length).foldl
            (fun (_ : Int) (k : Nat) => bb + (k : Int) + 1) st.pos)
    ∧ (parseDataBlock bb block st).2.encodingParams = st.encodingParams
    ∧ (parseDataBlock bb block st).2.file_size = st.file_size
    ∧ (parseDataBlock bb block st).2.encodingGuess = st.encodingGuess
    ∧ (parseDataBlock bb block st).2.fileTextCodec = st.fileTextCodec := by
  have hps := parseLoop_spec (block.length + 1) bb block
    { st with max_length := 0 } [] (by simpa using hp)
    (by dsimp only; omega) (by dsimp only; push_cast; omega)
  have hmax : max (({ st with max_length := 0 } : IndexingState).pos - bb) 0
      = 0 := by
    dsimp only
    omega
  rw [hmax] at hps
  dsimp only at hps
  unfold parseDataBlock
  rcases hpl : parseLoop bb block (block.length + 1)
      { st with max_length := 0 } [] with ⟨st', lines⟩
  rw [hpl] at hps
  dsimp only at hps ⊢
  rw [Int.toNat_zero] at hps
  exact ⟨by rw [hps.1, List.nil_append], hps.2.1, hps.2.2.1, hps.2.2.2.1,
    hps.2.2.2.2.1, hps.2.2.2.2.2⟩

/-- The codec invariant maintained through an indexing run with the
modelled probe: default encoding parameters, a forced codec only when
the file codec is set, and guesses that are either unset or the platform
default. -/
def EncInv (d : IndexingData) (st : IndexingState) : Prop :=
  st.encodingParams = ⟨1, 0⟩
  ∧ (st.fileTextCodec = none → d.encodingForced = none)
  ∧ (d.encodingGuess = none ∨ d.encodingGuess = some codecForLocale)
  ∧ (st.encodingGuess = none ∨ st.encodingGuess = some codecForLocale)

/-- `guessEncoding` under the invariant: the detected guess becomes the
platform default, the encoding parameters stay `(1, 0)`, and the
scan-related state is untouched. -/
theorem guessEncoding_spec (d : IndexingData) (block : List Nat)
    (st : IndexingState) (hinv : EncInv d st) :
    (guessEncoding d block st).encodingGuess = some codecForLocale
    ∧ (guessEncoding d block st).encodingParams = ⟨1, 0⟩
    ∧ (guessEncoding d block st).pos = st.pos
    ∧ (guessEncoding d block st).additional_spaces = st.additional_spaces
    ∧ (guessEncoding d block st).file_size = st.file_size
    ∧ ((guessEncoding d block st).fileTextCodec = none →
        d.encodingForced = none) := by
  obtain ⟨hp, hf, hdg, hsg⟩ := hinv
  unfold guessEncoding
  set st1 := (if st.encodingGuess.isNone = true then
      { st with encodingGuess := some (detectEncoding block) } else st)
    with hst1
  have h1g : st1.encodingGuess = some codecForLocale := by
    rw [hst1]
    rcases hsg with h | h
    · rw [if_pos (by rw [h]; rfl)]
      rfl
    · rw [if_neg (by rw [h]; simp)]
      exact h
  have h1p : st1.encodingParams = (⟨1, 0⟩ : EncodingParameters) := by
    rw [hst1]; split <;> exact hp
  have h1pos : st1.pos = st.pos := by rw [hst1]; split <;> rfl
  have h1sp : st1.additional_spaces = st.additional_spaces := by
    rw [hst1]; split <;> rfl
  have h1fs : st1.file_size = st.file_size := by rw [hst1]; split <;> rfl
  have h1ftc : st1.fileTextCodec = st.fileTextCodec := by
    rw [hst1]; split <;> rfl
  by_cases hftc : st1.fileTextCodec.isNone = true
  · rw [if_pos hftc]
    have hfn : d.encodingForced = none := by
      apply hf
      rw [← h1ftc]
      exact Option.isNone_iff_eq_none.mp hftc
    have hX : d.encodingForced.orElse
        (fun _ => d.encodingGuess.orElse (fun _ => st1.encodingGuess))
        = some codecForLocale := by
      rw [hfn]
      show d.encodingGuess.orElse (fun _ => st1.encodingGuess)
        = some codecForLocale
      rcases hdg with h | h
      · rw [h]
        show st1.encodingGuess = some codecForLocale
        exact h1g
      · rw [h]
        rfl
    rw [hX]
    refine ⟨h1g, rfl, h1pos, h1sp, h1fs, fun _ => hfn⟩
  · rw [if_neg hftc]
    refine ⟨h1g, h1p, h1pos, h1sp, h1fs, fun he => hf (h1ftc ▸ he)⟩

theorem getD_take_drop (F : List Nat) (p n i : Nat) (hi : i < n) :
    ((F.drop p).take n).getD i 0 = F.getD (p + i) 0 := by
  simp only [List.getD]
  rw [List.get?_eq_getElem?, List.get?_eq_getElem?,
    List.getElem?_take_of_lt hi, List.getElem?_drop]

/-- Line-feed indices of a slice of `F`, shifted to absolute file
offsets. -/
theorem lfsB_shift (F : List Nat) (p : Nat) (c : List Nat)
    (hc : ∀ i, i < c.length → c.getD i 0 = F.getD (p + i) 0) :
    ∀ s, (lfsB c s c.length).map (fun k => p + k)
      = lfsB F (p + s) (p + c.length) := by
  have main : ∀ n s, c.length - s ≤ n →
      (lfsB c s c.length).map (fun k => p + k)
        = lfsB F (p + s) (p + c.length) := by
    intro n
    induction n with
    | zero =>
      intro s hn
      rw [lfsB_of_ge (by omega), lfsB_of_ge (by omega)]
      rfl
    | succ n ih =>
      intro s hn
      by_cases hse : c.length ≤ s
      · rw [lfsB_of_ge hse, lfsB_of_ge (by omega)]
        rfl
      · rw [lfsB.eq_def (F := c), dif_neg hse]
        rw [lfsB.eq_def (F := F) (s := p + s), dif_neg (by omega)]
        rw [hc s (by omega)]
        rw [List.map_append]
        have hrec := ih (s + 1) (by omega)
        rw [show p + s + 1 = p + (s + 1) by omega]
        rw [← hrec]
        congr 1
        split
        · rfl
        · rfl
  intro s
  exact main (c.length - s) s (le_refl _)

/-- The non-fingerprint effects of `addAll` for a non-empty block. -/
theorem addAll_main (d : IndexingData) (block : List Nat) (length : Int)
    (lp : FastLinePositionArray) (enc : Option QTextCodec) (hb : block ≠ []) :
    (d.addAll block length lp enc).linePosition
        = d.linePosition.append_list lp
    ∧ (d.addAll block length lp enc).hashBuilder = d.hashBuilder.addData block
    ∧ (d.addAll block length lp enc).hash.fullDigest
        = (d.hashBuilder.addData block).digest
    ∧ (d.addAll block length lp enc).encodingGuess = enc
    ∧ (d.addAll block length lp enc).encodingForced = d.encodingForced := by
  have hbe : block.isEmpty = false := by
    cases block
    · exact absurd rfl hb
    · rfl
  unfold IndexingData.addAll
  rw [hbe]
  dsimp only
  exact ⟨rfl, rfl, rfl, rfl, rfl⟩

/-- The effects of `addAll` with an empty block (the fake final line
feed step): only the line positions, max length and guess change. -/
theorem addAll_nil (d : IndexingData) (length : Int)
    (lp : FastLinePositionArray) (enc : Option QTextCodec) :
    (d.addAll [] length lp enc).linePosition = d.linePosition.append_list lp
    ∧ (d.addAll [] length lp enc).hashBuilder = d.hashBuilder
    ∧ (d.addAll [] length lp enc).hash = d.hash
    ∧ (d.addAll [] length lp enc).encodingGuess = enc
    ∧ (d.addAll [] length lp enc).encodingForced = d.encodingForced :=
  ⟨rfl, rfl, rfl, rfl, rfl⟩

theorem append_list_lines (a : LinePositionArray) (p : FastLinePositionArray) :
    (a.append_list p).lines
      = (if a.fakeFinalLF then a.lines.dropLast else a.lines) ++ p.lines
    ∧ (a.append_list p).fakeFinalLF = p.fakeFinalLF :=
  ⟨rfl, rfl⟩

theorem take_length_drop (l : List Nat) (n : Nat) :
    l.take n ++ l.drop ((l.take n).length) = l := by
  by_cases h : l.length ≤ n
  · rw [List.take_of_length_le h, List.drop_length, List.append_nil]
  · push_neg at h
    rw [List.length_take, min_eq_left (by omega)]
    exact List.take_append_drop n l

theorem foldl_pos_le (e : Int) :
    ∀ (L : List Nat) (q : Int), q ≤ e → (∀ k ∈ L, (k : Int) + 1 ≤ e) →
    L.foldl (fun (_ : Int) (k : Nat) => (k : Int) + 1) q ≤ e := by
  intro L
  induction L with
  | nil => intro q hq _; simpa using hq
  | cons k L ih =>
    intro q hq hk
    rw [List.foldl_cons]
    exact ih _ (hk k (List.mem_cons_self _ _))
      (fun x hx => hk x (List.mem_cons_of_mem _ hx))

set_option maxHeartbeats 1000000 in
/-- One parser-node step on a real, non-empty block at offset `p`, under
the codec invariant and with the scan position at or before the block
start. -/
theorem processBlock_spec (d : IndexingData) (st : IndexingState)
    (progs : List Int) (p : Nat) (c : List Nat) (hc : c ≠ [])
    (hinv : EncInv d st) (hpos : st.pos ≤ (p : Int)) :
    ((processBlock (d, st, progs) ((p : Int), c)).1.linePosition.lines
        = (if d.linePosition.fakeFinalLF = true then
            d.linePosition.lines.dropLast else d.linePosition.lines)
          ++ (lfsB c 0 c.length).map (fun k : Nat => (p : Int) + (k : Int) + 1))
    ∧ (processBlock (d, st, progs) ((p : Int), c)).1.linePosition.fakeFinalLF
        = false
    ∧ (processBlock (d, st, progs) ((p : Int), c)).1.hashBuilder
        = d.hashBuilder.addData c
    ∧ (processBlock (d, st, progs) ((p : Int), c)).1.hash.fullDigest
        = (d.hashBuilder.addData c).digest
    ∧ (processBlock (d, st, progs) ((p : Int), c)).1.hash.size
        = d.hash.size + c.length
    ∧ (processBlock (d, st, progs) ((p : Int), c)).1.encodingGuess
        = some codecForLocale
    ∧ (processBlock (d, st, progs) ((p : Int), c)).1.encodingForced
        = d.encodingForced
    ∧ (processBlock (d, st, progs) ((p : Int), c)).2.1.pos
        = (lfsB c 0 c.length).foldl
            (fun (_ : Int) (k : Nat) => (p : Int) + (k : Int) + 1) st.pos
    ∧ (processBlock (d, st, progs) ((p : Int), c)).2.1.file_size = st.file_size
    ∧ EncInv (processBlock (d, st, progs) ((p : Int), c)).1
        (processBlock (d, st, progs) ((p : Int), c)).2.1 := by
  have hge := guessEncoding_spec d c st hinv
  have hp1 : (guessEncoding d c st).encodingParams
      = (⟨1, 0⟩ : EncodingParameters) := hge.2.1
  have hpd := parseDataBlock_spec ((p : Nat) : Int) c (guessEncoding d c st)
    hp1 (by rw [hge.2.2.1]; exact hpos)
  have hbe : c.isEmpty = false := by
    cases c
    · exact absurd rfl hc
    · rfl
  have hadd := addAll_main d c
    ((parseDataBlock ((p : Nat) : Int) c (guessEncoding d c st)).2.max_length)
    ((parseDataBlock ((p : Nat) : Int) c (guessEncoding d c st)).1)
    ((parseDataBlock ((p : Nat) : Int) c (guessEncoding d c st)).2.encodingGuess)
    hc
  unfold processBlock
  dsimp only
  rw [if_neg (by omega), if_neg (by rw [hbe]; simp)]
  dsimp only
  refine ⟨?_, ?_, ?_, ?_, ?_, ?_, ?_, ?_, ?_, ?_⟩
  · rw [hadd.1, (append_list_lines _ _).1, hpd.1]
  · rw [hadd.1, (append_list_lines _ _).2, hpd.1]
  · exact hadd.2.1
  · exact hadd.2.2.1
  · exact addAll_size d c _ _ _
  · rw [hadd.2.2.2.1, hpd.2.2.2.2.1, hge.1]
  · exact hadd.2.2.2.2
  · rw [hpd.2.1, hge.2.2.1]
  · rw [hpd.2.2.2.1, hge.2.2.2.2.1]
  · refine ⟨?_, ?_, ?_, ?_⟩
    · exact hpd.2.2.1.trans hp1
    · intro hftc
      rw [hadd.2.2.2.2]
      apply hge.2.2.2.2.2
      rw [← hpd.2.2.2.2.2]
      exact hftc
    · right
      rw [hadd.2.2.2.1, hpd.2.2.2.2.1, hge.1]
    · right
      rw [hpd.2.2.2.2.1, hge.1]

set_option maxHeartbeats 2000000 in
/-- The whole pipeline fold, from file position `p` to end of file: line
starts are `k + 1` for every line feed at file offset `k ≥ p` (popping a
pre-existing fake final entry as soon as a block is appended), the
rolling digest absorbs `F.drop p`, the indexed size grows by the bytes
read, and the scan position ends just past the last line feed. -/
theorem foldChunks_spec (F : List Nat) (p : Nat) (d : IndexingData)
    (st : IndexingState) (progs : List Int)
    (hple : p ≤ F.length) (hinv : EncInv d st)
    (hpos : st.pos ≤ (p : Int)) (hfs : st.file_size = (F.length : Int)) :
    (((readChunks F p none).foldl processBlock (d, st, progs)).1.linePosition.lines
        = (if d.linePosition.fakeFinalLF = true ∧ p < F.length then
            d.linePosition.lines.dropLast else d.linePosition.lines)
          ++ (lfsB F p F.length).map (fun k : Nat => (k : Int) + 1))
    ∧ (((readChunks F p none).foldl processBlock
          (d, st, progs)).1.linePosition.fakeFinalLF
        = if p < F.length then false else d.linePosition.fakeFinalLF)
    ∧ (((readChunks F p none).foldl processBlock (d, st, progs)).1.hashBuilder
        = d.hashBuilder.addData (F.drop p))
    ∧ (((readChunks F p none).foldl processBlock (d, st, progs)).1.hash.fullDigest
        = if p < F.length then (d.hashBuilder.addData (F.drop p)).digest
          else d.hash.fullDigest)
    ∧ (((readChunks F p none).foldl processBlock (d, st, progs)).1.hash.size
        = d.hash.size + (F.length - p))
    ∧ (((readChunks F p none).foldl processBlock (d, st, progs)).1.encodingGuess
        = if p < F.length then some codecForLocale else d.encodingGuess)
    ∧ (((readChunks F p none).foldl processBlock (d, st, progs)).1.encodingForced
        = d.encodingForced)
    ∧ (((readChunks F p none).foldl processBlock (d, st, progs)).2.1.pos
        = (lfsB F p F.length).foldl
            (fun (_ : Int) (k : Nat) => (k : Int) + 1) st.pos)
    ∧ (((readChunks F p none).foldl processBlock (d, st, progs)).2.1.file_size
        = (F.length : Int))
    ∧ EncInv (((readChunks F p none).foldl processBlock (d, st, progs)).1)
        (((readChunks F p none).foldl processBlock (d, st, progs)).2.1) := by
  by_cases hend : F.length ≤ p
  · have hpe : readChunks F p none = [] := by
      rw [readChunks.eq_def, dif_pos (Or.inl hend)]
    rw [hpe]
    simp only [List.foldl_nil]
    have hlf : lfsB F p F.length = [] := lfsB_of_ge hend
    have hdrop : F.drop p = [] := List.drop_eq_nil_of_le hend
    have hnlt : ¬ p < F.length := by omega
    rw [hlf, hdrop]
    refine ⟨?_, ?_, ?_, ?_, ?_, ?_, ?_, ?_, ?_, ?_⟩
    · rw [if_neg (by tauto), List.map_nil, List.append_nil]
    · rw [if_neg hnlt]
    · trivial
    · rw [if_neg hnlt]
    · omega
    · rw [if_neg hnlt]
    · trivial
    · rw [List.foldl_nil]
    · exact hfs
    · exact hinv
  · push_neg at hend
    rw [readChunks.eq_def,
      dif_neg (by simp only [not_or]; exact ⟨by omega, by simp⟩)]
    dsimp only
    simp only [Option.map_none']
    set c := (F.drop p).take IndexingBlockSize with hcdef
    have hclen : c.length = min IndexingBlockSize (F.length - p) := by
      rw [hcdef]; simp [List.length_take, List.length_drop]
    have hcpos : 0 < c.length := by
      have : 0 < IndexingBlockSize := by norm_num [IndexingBlockSize]
      omega
    have hcne : c ≠ [] := by
      intro hnil; rw [hnil] at hcpos; simp at hcpos
    rw [List.foldl_cons]
    have hps := processBlock_spec d st progs p c hcne hinv hpos
    rcases hpb : processBlock (d, st, progs) ((p : Int), c)
      with ⟨d1, st1, progs1⟩
    rw [hpb] at hps
    dsimp only at hps
    obtain ⟨hL, hFg, hB, hD, hS, hG, hFo, hPos1, hFs1, hInv1⟩ := hps
    have hgetD : ∀ i, i < c.length → c.getD i 0 = F.getD (p + i) 0 := by
      intro i hi
      rw [hcdef]
      exact getD_take_drop F p IndexingBlockSize i (by omega)
    have hshift := lfsB_shift F p c hgetD 0
    rw [Nat.add_zero] at hshift
    have hmap : (lfsB c 0 c.length).map
          (fun k : Nat => (p : Int) + (k : Int) + 1)
        = (lfsB F p (p + c.length)).map (fun k : Nat => (k : Int) + 1) := by
      rw [← hshift, List.map_map]
      apply List.map_congr_left
      intro a _
      simp only [Function.comp_apply]
      push_cast
      ring
    have hfoldc : ∀ q : Int, (lfsB c 0 c.length).foldl
          (fun (_ : Int) (k : Nat) => (p : Int) + (k : Int) + 1) q
        = (lfsB F p (p + c.length)).foldl
            (fun (_ : Int) (k : Nat) => (k : Int) + 1) q := by
      intro q
      rw [← hshift, List.foldl_map]
      congr 1
    have hdd2 : F.drop (p + c.length) = (F.drop p).drop c.length := by
      rw [List.drop_drop]
    have hsplit : c ++ F.drop (p + c.length) = F.drop p := by
      rw [hdd2, hcdef]
      exact take_length_drop (F.drop p) IndexingBlockSize
    have hBB : (d.hashBuilder.addData c).addData (F.drop (p + c.length))
        = d.hashBuilder.addData (F.drop p) := by
      rw [← FileDigest.addData_append, hsplit]
    have hpos1 : st1.pos ≤ ((p + c.length : Nat) : Int) := by
      rw [hPos1, hfoldc]
      apply foldl_pos_le
      · push_cast
        omega
      · intro k hk
        have := lfsB_mem hk
        push_cast
        omega
    have hfs1 : st1.file_size = (F.length : Int) := by rw [hFs1, hfs]
    have hrec := foldChunks_spec F (p + c.length) d1 st1 progs1
      (by omega) hInv1 hpos1 hfs1
    obtain ⟨rL, rFg, rB, rD, rS, rG, rFo, rPos, rFs, rInv⟩ := hrec
    refine ⟨?_, ?_, ?_, ?_, ?_, ?_, ?_, ?_, rFs, rInv⟩
    · rw [rL, hFg]
      rw [if_neg (by simp), hL, hmap, List.append_assoc, ← List.map_append,
        lfsB_glue (by omega) (by omega)]
      rcases hflag : d.linePosition.fakeFinalLF with _ | _
      · rw [if_neg (by simp), if_neg (by simp [hflag])]
      · rw [if_pos (by simp), if_pos (by simp [hend])]
    · rw [rFg, hFg, if_pos hend]
      split <;> rfl
    · rw [rB, hB, hBB]
    · rw [rD, if_pos hend]
      by_cases hple2 : p + c.length < F.length
      · rw [if_pos hple2, hB, hBB]
      · rw [if_neg hple2, hD]
        have hceq : c = F.drop p := by
          have hlen : (F.drop p).length ≤ IndexingBlockSize := by
            simp only [List.length_drop]
            omega
          rw [hcdef]
          exact List.take_of_length_le hlen
        rw [hceq]
    · rw [rS, hS]
      omega
    · rw [rG, hG, if_pos hend]
      split <;> rfl
    · rw [rFo, hFo]
    · rw [rPos, hPos1, hfoldc,
        ← lfsB_glue (show p ≤ p + c.length by omega)
          (show p + c.length ≤ F.length by omega),
        List.foldl_append]
  termination_by F.length - p

/-- The file's last byte is a line feed (what makes the driver skip the
fake final line feed). -/
def endsWithLF (F : List Nat) : Prop := F.getD (F.length - 1) 0 = 10

instance (F : List Nat) : Decidable (endsWithLF F) := by
  unfold endsWithLF
  infer_instance

theorem foldl_abs_getLast (L : List Nat) :
    ∀ q : Int, L.foldl (fun (_ : Int) (k : Nat) => (k : Int) + 1) q
      = ((L.getLast?).map (fun k : Nat => (k : Int) + 1)).getD q := by
  induction L with
  | nil => intro q; rfl
  | cons k L ih =>
    intro q
    rw [List.foldl_cons, ih]
    cases L with
    | nil => rfl
    | cons k2 L2 =>
      rw [List.getLast?_cons_cons]
      cases hgl : (k2 :: L2).getLast? with
      | none => exact absurd hgl (by simp)
      | some x => simp only [hgl, Option.map_some', Option.getD_some]

theorem lfsB_getLast_lf (F : List Nat) :
    ∀ p, p < F.length → endsWithLF F →
      (lfsB F p F.length).getLast? = some (F.length - 1) := by
  have main : ∀ n p, F.length - p ≤ n → p < F.length → endsWithLF F →
      (lfsB F p F.length).getLast? = some (F.length - 1) := by
    intro n
    induction n with
    | zero => intro p hn hp _; omega
    | succ n ih =>
      intro p hn hp hlf
      rw [lfsB.eq_def, dif_neg (by omega)]
      by_cases hlast : p = F.length - 1
      · have h2 : lfsB F (p + 1) F.length = [] := lfsB_of_ge (by omega)
        rw [h2, List.append_nil]
        have : F.getD p 0 = 10 := by rw [hlast]; exact hlf
        rw [if_pos this, hlast]
        rfl
      · have hrec := ih (p + 1) (by omega) (by omega) hlf
        rw [List.getLast?_append, hrec]
        rfl
  intro p hp hlf
  exact main (F.length - p) p (le_refl _) hp hlf

theorem lfsB_lt_last (F : List Nat) (p : Nat) (hlf : ¬ endsWithLF F) :
    ∀ k ∈ lfsB F p F.length, k < F.length - 1 := by
  intro k hk
  have hm := lfsB_mem hk
  by_cases hkl : k = F.length - 1
  · exfalso
    apply hlf
    unfold endsWithLF
    rw [← hkl]
    exact hm.2.2
  · omega

/-- The driver's fake-final-line-feed condition, in terms of the file's
content: the scan ends short of the file size exactly when data was read
and the file does not end on a line feed. -/
theorem finalPos_iff (F : List Nat) (p : Nat) (hple : p ≤ F.length) :
    ((F.length : Int) > (lfsB F p F.length).foldl
        (fun (_ : Int) (k : Nat) => (k : Int) + 1) (p : Int))
      ↔ (p < F.length ∧ ¬ endsWithLF F) := by
  rw [foldl_abs_getLast]
  by_cases hp : p < F.length
  · by_cases hlf : endsWithLF F
    · rw [lfsB_getLast_lf F p hp hlf]
      simp only [Option.map_some', Option.getD_some]
      constructor
      · intro h
        exfalso
        omega
      · intro h
        exact absurd hlf h.2
    · constructor
      · intro _
        exact ⟨hp, hlf⟩
      · intro _
        cases hL : (lfsB F p F.length).getLast? with
        | none =>
          simp only [hL, Option.map_none', Option.getD_none]
          omega
        | some k =>
          have hk := lfsB_lt_last F p hlf k (List.mem_of_mem_getLast? hL)
          simp only [hL, Option.map_some', Option.getD_some]
          omega
  · have h2 : lfsB F p F.length = [] := lfsB_of_ge (by omega)
    rw [h2]
    simp only [List.getLast?_nil, Option.map_none', Option.getD_none]
    constructor
    · intro h
      omega
    · intro h
      exact absurd h.1 hp

theorem processBlock_sentinel (acc : IndexingData × IndexingState × List Int) :
    processBlock acc ((-1 : Int), ([] : List Nat)) = acc := by
  rcases acc with ⟨d, st, progs⟩
  unfold processBlock
  dsimp only
  rw [if_pos (by norm_num)]

theorem setEncodingGuess_frame (d : IndexingData) (c : Option QTextCodec) :
    (d.setEncodingGuess c).linePosition = d.linePosition
    ∧ (d.setEncodingGuess c).hashBuilder = d.hashBuilder
    ∧ (d.setEncodingGuess c).hash = d.hash
    ∧ (d.setEncodingGuess c).encodingForced = d.encodingForced
    ∧ (d.setEncodingGuess c).encodingGuess = c :=
  ⟨rfl, rfl, rfl, rfl, rfl⟩

set_option maxHeartbeats 2000000 in
/-- `doIndex` on an openable file without interrupt or read failure:
line starts, fake final line feed, rolling digest, indexed size and
codecs, all as functions of the file content and the starting state. -/
theorem doIndex_spec (F : List Nat) (p : Nat) (d : IndexingData)
    (hple : p ≤ F.length)
    (hg : d.encodingGuess = none ∨ d.encodingGuess = some codecForLocale) :
    ((doIndex ⟨F, true⟩ p d none none).1.linePosition.lines
        = (if d.linePosition.fakeFinalLF = true ∧ p < F.length then
            d.linePosition.lines.dropLast else d.linePosition.lines)
          ++ (lfsB F p F.length).map (fun k : Nat => (k : Int) + 1)
          ++ (if p < F.length ∧ ¬ endsWithLF F then [(F.length : Int) + 1]
              else []))
    ∧ ((doIndex ⟨F, true⟩ p d none none).1.linePosition.fakeFinalLF
        = if p < F.length ∧ ¬ endsWithLF F then true
          else if p < F.length then false else d.linePosition.fakeFinalLF)
    ∧ ((doIndex ⟨F, true⟩ p d none none).1.hashBuilder
        = d.hashBuilder.addData (F.drop p))
    ∧ ((doIndex ⟨F, true⟩ p d none none).1.hash.fullDigest
        = if p < F.length then (d.hashBuilder.addData (F.drop p)).digest
          else d.hash.fullDigest)
    ∧ ((doIndex ⟨F, true⟩ p d none none).1.hash.size
        = d.hash.size + (F.length - p))
    ∧ ((doIndex ⟨F, true⟩ p d none none).1.encodingGuess = some codecForLocale)
    ∧ ((doIndex ⟨F, true⟩ p d none none).1.encodingForced
        = d.encodingForced) := by
  have hinv0 : EncInv d (initialIndexingState ⟨F, true⟩ p d) := by
    refine ⟨rfl, ?_, hg, ?_⟩
    · intro hftc
      unfold initialIndexingState at hftc
      dsimp only at hftc
      cases hfo : d.encodingForced with
      | none => rfl
      | some c =>
        rw [hfo] at hftc
        exact absurd hftc (by simp [Option.orElse])
    · show (initialIndexingState ⟨F, true⟩ p d).encodingGuess = none ∨ _
      unfold initialIndexingState
      dsimp only
      exact hg
  unfold doIndex
  rw [if_neg (by simp)]
  dsimp only
  have hstop : stopCount none none = none := rfl
  rw [hstop]
  rw [List.foldl_append, List.foldl_cons, List.foldl_nil, processBlock_sentinel]
  have hfc := foldChunks_spec F p d (initialIndexingState ⟨F, true⟩ p d)
    [] hple hinv0 (by unfold initialIndexingState; dsimp only; exact le_refl _)
    (by unfold initialIndexingState; dsimp only)
  rcases hfold : (readChunks F p none).foldl processBlock
      (d, initialIndexingState ⟨F, true⟩ p d, ([] : List Int))
    with ⟨d1, st1, progs1⟩
  rw [hfold] at hfc
  dsimp only at hfc
  obtain ⟨rL, rFg, rB, rD, rS, rG, rFo, rPos, rFs, rInv⟩ := hfc
  rw [show (initialIndexingState ⟨F, true⟩ p d).pos = (p : Int) from rfl]
    at rPos
  have hgt : (st1.file_size > st1.pos) ↔ (p < F.length ∧ ¬ endsWithLF F) := by
    rw [rFs, rPos]
    exact finalPos_iff F p hple
  unfold indexFinalize
  dsimp only
  by_cases hfake : p < F.length ∧ ¬ endsWithLF F
  · rw [if_neg (show ¬((none : Option Nat).isSome = true) by simp)]
    rw [if_pos (show (none : Option Nat).isNone = true
        ∧ st1.file_size > st1.pos from ⟨rfl, hgt.mpr hfake⟩)]
    have hnil := addAll_nil d1 0
      { lines := [st1.file_size + 1], fakeFinalLF := true } st1.encodingGuess
    have hlines2 : (d1.addAll [] 0
        { lines := [st1.file_size + 1], fakeFinalLF := true }
        st1.encodingGuess).linePosition.lines
        = d1.linePosition.lines ++ [(F.length : Int) + 1] := by
      rw [hnil.1, (append_list_lines _ _).1, rFg, if_pos hfake.1,
        if_neg (by simp), rFs]
    have hflag2 : (d1.addAll [] 0
        { lines := [st1.file_size + 1], fakeFinalLF := true }
        st1.encodingGuess).linePosition.fakeFinalLF = true := by
      rw [hnil.1, (append_list_lines _ _).2]
    rcases rInv.2.2.2 with hsg | hsg
    · rw [if_pos (by rw [hnil.2.2.2.1, hsg]; rfl)]
      refine ⟨?_, ?_, ?_, ?_, ?_, ?_, ?_⟩
      · rw [(setEncodingGuess_frame _ _).1, hlines2, rL, if_pos hfake]
      · rw [(setEncodingGuess_frame _ _).1, hflag2, if_pos hfake]
      · rw [(setEncodingGuess_frame _ _).2.1, hnil.2.1, rB]
      · rw [(setEncodingGuess_frame _ _).2.2.1, hnil.2.2.1, rD]
      · rw [(setEncodingGuess_frame _ _).2.2.1, hnil.2.2.1, rS]
      · rw [(setEncodingGuess_frame _ _).2.2.2.2]
      · rw [(setEncodingGuess_frame _ _).2.2.2.1, hnil.2.2.2.2, rFo]
    · rw [if_neg (by rw [hnil.2.2.2.1, hsg]; simp)]
      refine ⟨?_, ?_, ?_, ?_, ?_, ?_, ?_⟩
      · rw [hlines2, rL, if_pos hfake]
      · rw [hflag2, if_pos hfake]
      · rw [hnil.2.1, rB]
      · rw [hnil.2.2.1, rD]
      · rw [hnil.2.2.1, rS]
      · rw [hnil.2.2.2.1, hsg]
      · rw [hnil.2.2.2.2, rFo]
  · rw [if_neg (show ¬((none : Option Nat).isSome = true) by simp)]
    rw [if_neg (show ¬((none : Option Nat).isNone = true
        ∧ st1.file_size > st1.pos) from fun hcc => hfake (hgt.mp hcc.2))]
    have hbase : (if d.linePosition.fakeFinalLF = true ∧ p < F.length then
        d.linePosition.lines.dropLast else d.linePosition.lines)
        ++ (lfsB F p F.length).map (fun k : Nat => (k : Int) + 1)
        ++ (if p < F.length ∧ ¬ endsWithLF F then [(F.length : Int) + 1]
            else [])
        = (if d.linePosition.fakeFinalLF = true ∧ p < F.length then
            d.linePosition.lines.dropLast else d.linePosition.lines)
          ++ (lfsB F p F.length).map (fun k : Nat => (k : Int) + 1) := by
      rw [if_neg hfake, List.append_nil]
    by_cases hp : p < F.length
    · have hg1 : d1.encodingGuess = some codecForLocale := by
        rw [rG, if_pos hp]
      rw [if_neg (by rw [hg1]; simp)]
      refine ⟨?_, ?_, ?_, ?_, ?_, ?_, ?_⟩
      · rw [rL, hbase]
      · rw [rFg, if_neg hfake]
      · exact rB
      · exact rD
      · exact rS
      · exact hg1
      · exact rFo
    · have hg1 : d1.encodingGuess = d.encodingGuess := by
        rw [rG, if_neg hp]
      rcases hg with hgn | hgl
      · rw [if_pos (by rw [hg1, hgn]; rfl)]
        refine ⟨?_, ?_, ?_, ?_, ?_, ?_, ?_⟩
        · rw [(setEncodingGuess_frame _ _).1, rL, hbase]
        · rw [(setEncodingGuess_frame _ _).1, rFg, if_neg hfake]
        · rw [(setEncodingGuess_frame _ _).2.1, rB]
        · rw [(setEncodingGuess_frame _ _).2.2.1, rD]
        · rw [(setEncodingGuess_frame _ _).2.2.1, rS]
        · rw [(setEncodingGuess_frame _ _).2.2.2.2]
        · rw [(setEncodingGuess_frame _ _).2.2.2.1, rFo]
      · rw [if_neg (by rw [hg1, hgl]; simp)]
        refine ⟨?_, ?_, ?_, ?_, ?_, ?_, ?_⟩
        · rw [rL, hbase]
        · rw [rFg, if_neg hfake]
        · exact rB
        · exact rD
        · exact rS
        · rw [hg1, hgl]
        · exact rFo

/-! ## Fueled evaluation forms of the well-founded loops

The loops below mirror `expandTabsLoop`, `parseLoop`'s surrounding
definitions and `readChunks` with explicit fuel, and are proved equal to
the originals; they exist so that concrete runs reduce inside the
kernel. -/

theorem expandTabsLoop_none {block : List Nat} {searchStart : Nat}
    {lineSize : Int} (bb pos bco spaces : Int)
    (h : memchr 9 block searchStart lineSize.toNat = none) :
    expandTabsLoop bb pos bco block searchStart lineSize spaces = spaces := by
  rw [expandTabsLoop.eq_def]
  split
  · rfl
  · rename_i t ht
    rw [h] at ht
    exact Option.noConfusion ht

theorem expandTabsLoop_found {block : List Nat} {searchStart t : Nat}
    {lineSize : Int} (bb pos bco spaces : Int)
    (h : memchr 9 block searchStart lineSize.toNat = some t) :
    expandTabsLoop bb pos bco block searchStart lineSize spaces =
      (if lineSize - ((t : Int) - (searchStart : Int)) > 0 then
        expandTabsLoop bb pos bco block (t + 1)
          (lineSize - ((t : Int) - (searchStart : Int)))
          (spaces + (TabStop - (bb - pos + ((t : Int) - bco) + spaces).tmod
            TabStop - 1))
      else
        spaces + (TabStop - (bb - pos + ((t : Int) - bco) + spaces).tmod
          TabStop - 1)) := by
  rw [expandTabsLoop.eq_def]
  split
  · rename_i ht
    rw [h] at ht
    exact Option.noConfusion ht
  · rename_i t' ht
    rw [h] at ht
    injection ht with h2
    subst h2
    rfl

def expandTabsLoopF : Nat → Int → Int → Int → List Nat → Nat → Int → Int →
    Int
  | 0, _, _, _, _, _, _, spaces => spaces
  | fuel + 1, bb, pos, bco, block, searchStart, lineSize, spaces =>
    match memchr 9 block searchStart lineSize.toNat with
    | none => spaces
    | some t =>
      let spaces' := spaces
        + (TabStop - (bb - pos + ((t : Int) - bco) + spaces).tmod TabStop - 1)
      let lineSize' := lineSize - ((t : Int) - (searchStart : Int))
      if lineSize' > 0 then
        expandTabsLoopF fuel bb pos bco block (t + 1) lineSize' spaces'
      else
        spaces'

theorem expandTabsLoopF_eq (block : List Nat) (bb pos bco : Int) :
    ∀ (fuel : Nat) (searchStart : Nat) (lineSize spaces : Int),
      block.length - searchStart < fuel →
      expandTabsLoopF fuel bb pos bco block searchStart lineSize spaces
        = expandTabsLoop bb pos bco block searchStart lineSize spaces := by
  intro fuel
  induction fuel with
  | zero =>
    intro s l sp h
    omega
  | succ n ih =>
    intro s l sp h
    cases hm : memchr 9 block s l.toNat with
    | none =>
      simp only [expandTabsLoopF, hm]
      rw [expandTabsLoop_none _ _ _ _ hm]
    | some t =>
      have hb := memchr_bounds hm
      simp only [expandTabsLoopF, hm]
      rw [expandTabsLoop_found _ _ _ _ hm]
      by_cases hgt : l - ((t : Int) - (s : Int)) > 0
      · rw [if_pos hgt, if_pos hgt]
        exact ih (t + 1) _ _ (by omega)
      · rw [if_neg hgt, if_neg hgt]

def parseLoopF (bb : Int) (block : List Nat) :
    Nat → IndexingState → List Int → IndexingState × List Int
  | 0, st, acc => (st, acc)
  | fuel + 1, st, acc =>
    let pwb : Int := max (st.pos - bb) 0
    let searchLineSize : Int := (block.length : Int) - pwb
    if searchLineSize > 0 then
      match memchr 10 block pwb.toNat searchLineSize.toNat with
      | some k =>
        let spaces' := expandTabsLoopF (block.length + 1) bb st.pos
          st.encodingParams.beforeCrOffset block pwb.toNat ((k : Int) - pwb)
          st.additional_spaces
        let pwb2 : Int := (k : Int) - st.encodingParams.beforeCrOffset
        if pwb2 = -1 then
          ({ st with additional_spaces := spaces' }, acc)
        else
          let endPos' := pwb2 + bb
          let length := endPos' - st.pos + spaces'
          let maxLength' := max st.max_length length
          let pos' := endPos' + st.encodingParams.lineFeedWidth
          parseLoopF bb block fuel
            { st with endPos := endPos', pos := pos', additional_spaces := 0,
                      max_length := maxLength' }
            (acc ++ [pos'])
      | none =>
        let spaces' := expandTabsLoopF (block.length + 1) bb st.pos
          st.encodingParams.beforeCrOffset block pwb.toNat searchLineSize
          st.additional_spaces
        ({ st with additional_spaces := spaces' }, acc)
    else
      (st, acc)

theorem parseLoopF_eq (bb : Int) (block : List Nat) :
    ∀ (fuel : Nat) (st : IndexingState) (acc : List Int),
      parseLoopF bb block fuel st acc = parseLoop bb block fuel st acc := by
  intro fuel
  induction fuel with
  | zero =>
    intro st acc
    rfl
  | succ n ih =>
    intro st acc
    simp only [parseLoopF, parseLoop]
    by_cases hsz : (block.length : Int) - max (st.pos - bb) 0 > 0
    · rw [if_pos hsz, if_pos hsz]
      cases hm : memchr 10 block (max (st.pos - bb) 0).toNat
          ((block.length : Int) - max (st.pos - bb) 0).toNat with
      | none =>
        simp only [hm]
        rw [expandTabsLoopF_eq _ _ _ _ _ _ _ _ (by omega)]
      | some k =>
        simp only [hm]
        rw [expandTabsLoopF_eq _ _ _ _ _ _ _ _ (by omega)]
        by_cases hp2 : (k : Int) - st.encodingParams.beforeCrOffset = -1
        · rw [if_pos hp2, if_pos hp2]
        · rw [if_neg hp2, if_neg hp2, ih]
    · rw [if_neg hsz, if_neg hsz]

def parseDataBlockF (block_beginning : Int) (block : List Nat)
    (st : IndexingState) : FastLinePositionArray × IndexingState :=
  let (st', lines) :=
    parseLoopF block_beginning block (block.length + 1)
      { st with max_length := 0 } []
  ({ lines := lines, fakeFinalLF := false }, st')

theorem parseDataBlockF_eq (bb : Int) (block : List Nat)
    (st : IndexingState) :
    parseDataBlockF bb block st = parseDataBlock bb block st := by
  unfold parseDataBlockF parseDataBlock
  rw [parseLoopF_eq]

def processBlockF (acc : IndexingData × IndexingState × List Int)
    (blockData : Int × List Nat) : IndexingData × IndexingState × List Int :=
  let (d, st, progs) := acc
  let (block_beginning, block) := blockData
  if block_beginning < 0 then acc
  else
    let st1 := guessEncoding d block st
    if block.isEmpty then (d.setEncodingGuess st1.encodingGuess, st1, progs)
    else
      let (line_positions, st2) := parseDataBlockF block_beginning block st1
      let d' := d.addAll block st2.max_length line_positions st2.encodingGuess
      let prog := if st2.file_size > 0 then calculateProgress st2.pos st2.file_size
                  else 100
      (d', st2, progs ++ [prog])

theorem processBlockF_eq : processBlockF = processBlock := by
  funext acc blockData
  rcases acc with ⟨d, st, progs⟩
  rcases blockData with ⟨bb, block⟩
  unfold processBlockF processBlock
  dsimp only
  rw [parseDataBlockF_eq]

def readChunksF : Nat → List Nat → Nat → Option Nat → List (Int × List Nat)
  | 0, _, _, _ => []
  | fuel + 1, contents, pos, stop =>
    if contents.length ≤ pos ∨ stop = some 0 then []
    else
      let chunk := (contents.drop pos).take IndexingBlockSize
      ((pos : Int), chunk)
        :: readChunksF fuel contents (pos + chunk.length)
            (stop.map (fun n => n - 1))

theorem readChunksF_eq :
    ∀ (fuel : Nat) (contents : List Nat) (pos : Nat) (stop : Option Nat),
      contents.length - pos < fuel →
      readChunksF fuel contents pos stop = readChunks contents pos stop := by
  intro fuel
  induction fuel with
  | zero =>
    intro c p s h
    omega
  | succ n ih =>
    intro c p s h
    rw [readChunks.eq_def]
    simp only [readChunksF]
    by_cases hstop : c.length ≤ p ∨ s = some 0
    · rw [if_pos hstop, dif_pos hstop]
    · rw [if_neg hstop, dif_neg hstop]
      congr 1
      apply ih
      have hib : 0 < IndexingBlockSize := by norm_num [IndexingBlockSize]
      push_neg at hstop
      simp only [List.length_take, List.length_drop]
      omega

/-- `doIndex` with the fueled reader and parser; equal to `doIndex` and
kernel-computable on concrete inputs. -/
def doIndexE (fileName : File) (initialPosition : Nat) (dIn : IndexingData)
    (intrAt failAt : Option Nat) : IndexingData × List Int :=
  if ¬(fileName.openable = true) then
    ((dIn.clear).setEncodingGuess (some codecForLocale), [100])
  else
    let chunks := readChunksF (fileName.contents.length + 1) fileName.contents
        initialPosition (stopCount intrAt failAt)
      ++ [((-1 : Int), ([] : List Nat))]
    indexFinalize
      (chunks.foldl processBlockF
        (dIn, initialIndexingState fileName initialPosition dIn, []))
      intrAt

theorem doIndexE_eq (fileName : File) (initialPosition : Nat)
    (dIn : IndexingData) (intrAt failAt : Option Nat) :
    doIndexE fileName initialPosition dIn intrAt failAt
      = doIndex fileName initialPosition dIn intrAt failAt := by
  unfold doIndexE doIndex
  rw [readChunksF_eq _ _ _ _ (by omega), processBlockF_eq]

/-! ## Normal form of a full index -/

theorem LinePositionArray.ext' (a b : LinePositionArray)
    (h1 : a.lines = b.lines) (h2 : a.fakeFinalLF = b.fakeFinalLF) :
    a = b := by
  cases a
  cases b
  cases h1
  cases h2
  rfl

theorem getD_take (F : List Nat) (n k : Nat) (hk : k < n) :
    (F.take n).getD k 0 = F.getD k 0 := by
  simp only [List.getD]
  rw [List.get?_eq_getElem?, List.get?_eq_getElem?,
    List.getElem?_take_of_lt hk]

theorem lfsB_congr {F G : List Nat} :
    ∀ {s e : Nat}, (∀ k, s ≤ k → k < e → F.getD k 0 = G.getD k 0) →
      lfsB F s e = lfsB G s e := by
  have main : ∀ (n s e : Nat), e - s ≤ n →
      (∀ k, s ≤ k → k < e → F.getD k 0 = G.getD k 0) →
      lfsB F s e = lfsB G s e := by
    intro n
    induction n with
    | zero =>
      intro s e hn h
      rw [lfsB_of_ge (by omega), lfsB_of_ge (by omega)]
    | succ m ih =>
      intro s e hn h
      by_cases hse : e ≤ s
      · rw [lfsB_of_ge hse, lfsB_of_ge hse]
      · have hF : lfsB F s e
            = (if F.getD s 0 = 10 then [s] else []) ++ lfsB F (s + 1) e := by
          rw [lfsB.eq_def, dif_neg hse]
        have hG : lfsB G s e
            = (if G.getD s 0 = 10 then [s] else []) ++ lfsB G (s + 1) e := by
          rw [lfsB.eq_def, dif_neg hse]
        rw [hF, hG, h s (le_refl s) (by omega),
          ih (s + 1) e (by omega) (fun k hk1 hk2 => h k (by omega) hk2)]
  intro s e h
  exact main (e - s) s e (le_refl _) h

theorem lfsB_take (F : List Nat) (n : Nat) :
    lfsB (F.take n) 0 n = lfsB F 0 n :=
  lfsB_congr (fun k _ hk => getD_take F n k hk)

theorem dropLast_concat' (xs : List Int) (a : Int) :
    (xs ++ [a]).dropLast = xs := by
  simp

/-- A full index from the cleared state: line starts are the successors
of the line-feed offsets, plus the synthetic entry past end-of-file for
an unterminated file; the digest is the digest of the whole content; the
indexed size is the file size; the guess is the platform default. -/
theorem fullIndex_norm (F : List Nat) :
    ((doIndex ⟨F, true⟩ 0 IndexingData.empty none none).1.linePosition.lines
        = (lfsB F 0 F.length).map (fun k : Nat => (k : Int) + 1)
          ++ (if 0 < F.length ∧ ¬ endsWithLF F then [(F.length : Int) + 1]
              else []))
    ∧ ((doIndex ⟨F, true⟩ 0 IndexingData.empty none
          none).1.linePosition.fakeFinalLF
        = if 0 < F.length ∧ ¬ endsWithLF F then true else false)
    ∧ ((doIndex ⟨F, true⟩ 0 IndexingData.empty none none).1.hashBuilder
        = FileDigest.empty.addData F)
    ∧ ((doIndex ⟨F, true⟩ 0 IndexingData.empty none none).1.hash.fullDigest
        = if 0 < F.length then (FileDigest.empty.addData F).digest else 0)
    ∧ ((doIndex ⟨F, true⟩ 0 IndexingData.empty none none).1.hash.size
        = F.length)
    ∧ ((doIndex ⟨F, true⟩ 0 IndexingData.empty none none).1.encodingGuess
        = some codecForLocale)
    ∧ ((doIndex ⟨F, true⟩ 0 IndexingData.empty none none).1.encodingForced
        = none) := by
  obtain ⟨rL, rFg, rB, rD, rS, rG, rFo⟩ :=
    doIndex_spec F 0 IndexingData.empty (Nat.zero_le _) (Or.inl rfl)
  have hflag : IndexingData.empty.linePosition.fakeFinalLF = false := rfl
  have hlines : IndexingData.empty.linePosition.lines = ([] : List Int) := rfl
  refine ⟨?_, ?_, ?_, ?_, ?_, ?_, ?_⟩
  · rw [rL, if_neg (by rw [hflag]; simp), hlines, List.nil_append]
  · rw [rFg, hflag]
    by_cases h : 0 < F.length ∧ ¬ endsWithLF F
    · rw [if_pos h, if_pos h]
    · rw [if_neg h, if_neg h]
      by_cases h0 : 0 < F.length
      · rw [if_pos h0]
      · rw [if_neg h0]
  · rw [rB, List.drop_zero]
    rfl
  · rw [rD, List.drop_zero]
    by_cases h0 : 0 < F.length
    · rw [if_pos h0, if_pos h0]
      rfl
    · rw [if_neg h0, if_neg h0]
      rfl
  · rw [rS]
    have h0 : IndexingData.empty.hash.size = 0 := rfl
    rw [h0]
    omega
  · exact rG
  · rw [rFo]
    rfl

/-- **C2** (amended): after `index_all` on the prefix `F[0:n]` followed by
`index_additional_lines` once the file holds `F`, the line positions
(including the fake-final-LF marker), the number of lines, the full
digest and the indexed size all equal those of `index_all` run directly
on `F`; `index_additional_lines` starts from `initial_position =
indexed_size` and never clears.  (`max_length` is *not* preserved: a
line cut by the snapshot is measured from the snapshot point, see the
counterexample.) -/
theorem index_append_law (F : List Nat) (n : Nat) (hn : n ≤ F.length) :
    ((PartialIndexOperation.run ⟨F, true⟩
        (FullIndexOperation.run ⟨F.take n, true⟩ none IndexingData.empty
          none none).2.1 none none).2.1.linePosition
      = (FullIndexOperation.run ⟨F, true⟩ none IndexingData.empty
          none none).2.1.linePosition)
    ∧ ((PartialIndexOperation.run ⟨F, true⟩
        (FullIndexOperation.run ⟨F.take n, true⟩ none IndexingData.empty
          none none).2.1 none none).2.1.getNbLines
      = (FullIndexOperation.run ⟨F, true⟩ none IndexingData.empty
          none none).2.1.getNbLines)
    ∧ ((PartialIndexOperation.run ⟨F, true⟩
        (FullIndexOperation.run ⟨F.take n, true⟩ none IndexingData.empty
          none none).2.1 none none).2.1.hash.fullDigest
      = (FullIndexOperation.run ⟨F, true⟩ none IndexingData.empty
          none none).2.1.hash.fullDigest)
    ∧ ((PartialIndexOperation.run ⟨F, true⟩
        (FullIndexOperation.run ⟨F.take n, true⟩ none IndexingData.empty
          none none).2.1 none none).2.1.getIndexedSize
      = (FullIndexOperation.run ⟨F, true⟩ none IndexingData.empty
          none none).2.1.getIndexedSize) := by
  have hPlen : (F.take n).length = n := by
    rw [List.length_take]
    omega
  obtain ⟨pL, pFg, pB, pD, pS, pG, pFo⟩ := fullIndex_norm (F.take n)
  obtain ⟨fL, fFg, fB, fD, fS, fG, fFo⟩ := fullIndex_norm F
  rw [hPlen] at pL pFg pD pS
  rw [lfsB_take F n] at pL
  have hfullP : (FullIndexOperation.run ⟨F.take n, true⟩ none
      IndexingData.empty none none).2.1
      = (doIndex ⟨F.take n, true⟩ 0 IndexingData.empty none none).1 := rfl
  have hfullF : (FullIndexOperation.run ⟨F, true⟩ none
      IndexingData.empty none none).2.1
      = (doIndex ⟨F, true⟩ 0 IndexingData.empty none none).1 := rfl
  have hpos : (FullIndexOperation.run ⟨F.take n, true⟩ none
      IndexingData.empty none none).2.1.getIndexedSize = n := by
    rw [hfullP]
    simp only [IndexingData.getIndexedSize]
    exact pS
  have hpart : (PartialIndexOperation.run ⟨F, true⟩
      (FullIndexOperation.run ⟨F.take n, true⟩ none IndexingData.empty
        none none).2.1 none none).2.1
      = (doIndex ⟨F, true⟩ n
          (doIndex ⟨F.take n, true⟩ 0 IndexingData.empty none none).1
          none none).1 := by
    show (doIndex ⟨F, true⟩
        ((FullIndexOperation.run ⟨F.take n, true⟩ none IndexingData.empty
          none none).2.1.getIndexedSize)
        ((FullIndexOperation.run ⟨F.take n, true⟩ none IndexingData.empty
          none none).2.1) none none).1 = _
    rw [hpos, hfullP]
  obtain ⟨qL, qFg, qB, qD, qS, qG, qFo⟩ :=
    doIndex_spec F n
      ((doIndex ⟨F.take n, true⟩ 0 IndexingData.empty none none).1) hn
      (Or.inr pG)
  rw [hpart, hfullF]
  have hlines : (doIndex ⟨F, true⟩ n
      (doIndex ⟨F.take n, true⟩ 0 IndexingData.empty none none).1
      none none).1.linePosition.lines
      = (doIndex ⟨F, true⟩ 0 IndexingData.empty none
        none).1.linePosition.lines := by
    rw [qL, fL, pFg, pL]
    by_cases hnl : n < F.length
    · by_cases hpe : 0 < n ∧ ¬ endsWithLF (F.take n)
      · rw [if_pos ⟨by rw [if_pos hpe], hnl⟩, if_pos hpe, dropLast_concat',
          ← List.map_append, lfsB_glue (Nat.zero_le n) hn]
        by_cases hend : endsWithLF F
        · rw [if_neg (show ¬(n < F.length ∧ ¬ endsWithLF F) by tauto),
            if_neg (show ¬(0 < F.length ∧ ¬ endsWithLF F) by tauto)]
        · rw [if_pos ⟨hnl, hend⟩,
            if_pos (show 0 < F.length ∧ ¬ endsWithLF F from ⟨by omega, hend⟩)]
      · rw [if_neg (fun hcc => by rw [if_neg hpe] at hcc; simp at hcc),
          if_neg hpe, List.append_nil, ← List.map_append,
          lfsB_glue (Nat.zero_le n) hn]
        by_cases hend : endsWithLF F
        · rw [if_neg (show ¬(n < F.length ∧ ¬ endsWithLF F) by tauto),
            if_neg (show ¬(0 < F.length ∧ ¬ endsWithLF F) by tauto)]
        · rw [if_pos ⟨hnl, hend⟩,
            if_pos (show 0 < F.length ∧ ¬ endsWithLF F from ⟨by omega, hend⟩)]
    · have hEq : n = F.length := by omega
      rw [lfsB_of_ge (show F.length ≤ n by omega), List.map_nil,
        if_neg (show ¬(n < F.length ∧ ¬ endsWithLF F) from
          fun h => absurd h.1 (by omega)),
        List.append_nil, List.append_nil,
        if_neg (show ¬((if 0 < n ∧ ¬ endsWithLF (F.take n) then true
            else false) = true ∧ n < F.length) from
          fun h => absurd h.2 (by omega))]
      rw [show F.take n = F from by rw [hEq]; exact List.take_length F, hEq]
  have hflag : (doIndex ⟨F, true⟩ n
      (doIndex ⟨F.take n, true⟩ 0 IndexingData.empty none none).1
      none none).1.linePosition.fakeFinalLF
      = (doIndex ⟨F, true⟩ 0 IndexingData.empty none
        none).1.linePosition.fakeFinalLF := by
    rw [qFg, fFg]
    by_cases hnl : n < F.length
    · by_cases hend : endsWithLF F
      · rw [if_neg (show ¬(n < F.length ∧ ¬ endsWithLF F) by tauto),
          if_neg (show ¬(0 < F.length ∧ ¬ endsWithLF F) by tauto),
          if_pos hnl]
      · rw [if_pos ⟨hnl, hend⟩,
          if_pos (show 0 < F.length ∧ ¬ endsWithLF F from ⟨by omega, hend⟩)]
    · have hEq : n = F.length := by omega
      rw [if_neg (show ¬(n < F.length ∧ ¬ endsWithLF F) from
          fun h => absurd h.1 (by omega)),
        if_neg (show ¬(n < F.length) by omega), pFg,
        show F.take n = F from by rw [hEq]; exact List.take_length F, hEq]
  have hLP : (doIndex ⟨F, true⟩ n
      (doIndex ⟨F.take n, true⟩ 0 IndexingData.empty none none).1
      none none).1.linePosition
      = (doIndex ⟨F, true⟩ 0 IndexingData.empty none none).1.linePosition :=
    LinePositionArray.ext' _ _ hlines hflag
  refine ⟨hLP, ?_, ?_, ?_⟩
  · simp only [IndexingData.getNbLines, hLP]
  · rw [qD, fD, pB, ← FileDigest.addData_append, List.take_append_drop]
    by_cases hnl : n < F.length
    · rw [if_pos hnl, if_pos (by omega)]
    · have hEq : n = F.length := by omega
      rw [if_neg hnl, pD,
        show F.take n = F from by rw [hEq]; exact List.take_length F]
      by_cases h0 : 0 < n
      · rw [if_pos h0, if_pos (by omega)]
      · rw [if_neg h0, if_neg (by omega)]
  · simp only [IndexingData.getIndexedSize]
    rw [qS, pS, fS]
    omega

/-- Witness for the amended C2 append law at `F = "a\nbb"`, `n = 2`. -/
theorem index_append_law_witness :
    (2 ≤ List.length [97, 10, 98, 98])
    ∧ (((PartialIndexOperation.run ⟨[97, 10, 98, 98], true⟩
        (FullIndexOperation.run ⟨List.take 2 [97, 10, 98, 98], true⟩ none
          IndexingData.empty none none).2.1 none none).2.1.linePosition
      = (FullIndexOperation.run ⟨[97, 10, 98, 98], true⟩ none
          IndexingData.empty none none).2.1.linePosition)
    ∧ ((PartialIndexOperation.run ⟨[97, 10, 98, 98], true⟩
        (FullIndexOperation.run ⟨List.take 2 [97, 10, 98, 98], true⟩ none
          IndexingData.empty none none).2.1 none none).2.1.getNbLines
      = (FullIndexOperation.run ⟨[97, 10, 98, 98], true⟩ none
          IndexingData.empty none none).2.1.getNbLines)
    ∧ ((PartialIndexOperation.run ⟨[97, 10, 98, 98], true⟩
        (FullIndexOperation.run ⟨List.take 2 [97, 10, 98, 98], true⟩ none
          IndexingData.empty none none).2.1 none none).2.1.hash.fullDigest
      = (FullIndexOperation.run ⟨[97, 10, 98, 98], true⟩ none
          IndexingData.empty none none).2.1.hash.fullDigest)
    ∧ ((PartialIndexOperation.run ⟨[97, 10, 98, 98], true⟩
        (FullIndexOperation.run ⟨List.take 2 [97, 10, 98, 98], true⟩ none
          IndexingData.empty none none).2.1 none none).2.1.getIndexedSize
      = (FullIndexOperation.run ⟨[97, 10, 98, 98], true⟩ none
          IndexingData.empty none none).2.1.getIndexedSize)) :=
  ⟨by decide, index_append_law [97, 10, 98, 98] 2 (by decide)⟩

/-- Counterexample to the claimed bit-for-bit equality of C2: for
`F = "aa\nbbbb\n"` and `n = 5` the partial reindex measures the line cut
by the snapshot from the snapshot point, so `max_length` is 2 instead of
the 4 computed by a direct full index. -/
theorem index_append_law_cex :
    ((PartialIndexOperation.run ⟨[97, 97, 10, 98, 98, 98, 98, 10], true⟩
        (FullIndexOperation.run
          ⟨List.take 5 [97, 97, 10, 98, 98, 98, 98, 10], true⟩ none
          IndexingData.empty none none).2.1 none none).2.1.maxLength = 2)
    ∧ ((FullIndexOperation.run ⟨[97, 97, 10, 98, 98, 98, 98, 10], true⟩
        none IndexingData.empty none none).2.1.maxLength = 4)
    ∧ ((PartialIndexOperation.run ⟨[97, 97, 10, 98, 98, 98, 98, 10], true⟩
        (FullIndexOperation.run
          ⟨List.take 5 [97, 97, 10, 98, 98, 98, 98, 10], true⟩ none
          IndexingData.empty none none).2.1 none none).2.1.maxLength
      ≠ (FullIndexOperation.run ⟨[97, 97, 10, 98, 98, 98, 98, 10], true⟩
        none IndexingData.empty none none).2.1.maxLength) := by
  have h1 : (PartialIndexOperation.run ⟨[97, 97, 10, 98, 98, 98, 98, 10], true⟩
      (FullIndexOperation.run
        ⟨List.take 5 [97, 97, 10, 98, 98, 98, 98, 10], true⟩ none
        IndexingData.empty none none).2.1 none none).2.1.maxLength = 2 := by
    show (doIndex ⟨[97, 97, 10, 98, 98, 98, 98, 10], true⟩
      ((doIndex ⟨List.take 5 [97, 97, 10, 98, 98, 98, 98, 10], true⟩ 0
        IndexingData.empty none none).1.getIndexedSize)
      ((doIndex ⟨List.take 5 [97, 97, 10, 98, 98, 98, 98, 10], true⟩ 0
        IndexingData.empty none none).1) none none).1.maxLength = 2
    rw [← doIndexE_eq, ← doIndexE_eq]
    decide
  have h2 : (FullIndexOperation.run ⟨[97, 97, 10, 98, 98, 98, 98, 10], true⟩
      none IndexingData.empty none none).2.1.maxLength = 4 := by
    show (doIndex ⟨[97, 97, 10, 98, 98, 98, 98, 10], true⟩ 0
      IndexingData.empty none none).1.maxLength = 4
    rw [← doIndexE_eq]
    decide
  refine ⟨h1, h2, ?_⟩
  rw [h1, h2]
  decide

/-- **C7**: for every file whose last line lacks a terminating line
feed, a full index appends one synthetic final line-position entry at
`file_size + 1` and sets `fake_final_lf`. -/
theorem fake_final_lf (F : List Nat) (h1 : F ≠ [])
    (h2 : ¬ endsWithLF F) :
    ((FullIndexOperation.run ⟨F, true⟩ none IndexingData.empty none
        none).2.1.linePosition.fakeFinalLF = true)
    ∧ ((FullIndexOperation.run ⟨F, true⟩ none IndexingData.empty none
        none).2.1.linePosition.lines.getLast?
      = some ((F.length : Int) + 1)) := by
  have h0 : 0 < F.length := List.length_pos.mpr h1
  obtain ⟨fL, fFg, _⟩ := fullIndex_norm F
  have hrun : (FullIndexOperation.run ⟨F, true⟩ none IndexingData.empty
      none none).2.1
      = (doIndex ⟨F, true⟩ 0 IndexingData.empty none none).1 := rfl
  rw [hrun]
  constructor
  · rw [fFg, if_pos ⟨h0, h2⟩]
  · rw [fL, if_pos ⟨h0, h2⟩, List.getLast?_append]
    rfl

/-- Witness for C7 at the spec's scenario S2, the file `"a\nbb"`:
`fake_final_lf` is set, the last entry is `5 = file_size + 1`, and
`nb_lines = 2`. -/
theorem fake_final_lf_witness :
    (([97, 10, 98, 98] : List Nat) ≠ [])
    ∧ (¬ endsWithLF [97, 10, 98, 98])
    ∧ ((FullIndexOperation.run ⟨[97, 10, 98, 98], true⟩ none
        IndexingData.empty none none).2.1.linePosition.fakeFinalLF = true)
    ∧ ((FullIndexOperation.run ⟨[97, 10, 98, 98], true⟩ none
        IndexingData.empty none none).2.1.linePosition.lines.getLast?
      = some (((List.length [97, 10, 98, 98] : Nat) : Int) + 1))
    ∧ ((FullIndexOperation.run ⟨[97, 10, 98, 98], true⟩ none
        IndexingData.empty none none).2.1.getNbLines = 2) := by
  have h := fake_final_lf [97, 10, 98, 98] (by decide) (by decide)
  refine ⟨by decide, by decide, h.1, h.2, ?_⟩
  show (doIndex ⟨[97, 10, 98, 98], true⟩ 0 IndexingData.empty none
    none).1.getNbLines = 2
  rw [← doIndexE_eq]
  decide

/-- **C6** (amended): for the ASCII file `"x\ty\n"` with `TabStop = 8`
a full index computes `max_length = 9`, not 8: the tab accumulates
`additional_spaces = 8 - (1 % 8) - 1 = 6`, and the line's length is
`(end - pos) + additional_spaces = 3 + 6 = 9`, because `end - pos`
counts the tab byte itself as one column as well.  The file holds a
single line starting at offset 4 after its line feed. -/
theorem tab_expansion_s3 :
    ((FullIndexOperation.run ⟨[120, 9, 121, 10], true⟩ none
        IndexingData.empty none none).2.1.maxLength = 9)
    ∧ ((FullIndexOperation.run ⟨[120, 9, 121, 10], true⟩ none
        IndexingData.empty none none).2.1.linePosition.lines = [4])
    ∧ ((FullIndexOperation.run ⟨[120, 9, 121, 10], true⟩ none
        IndexingData.empty none none).2.1.getNbLines = 1)
    ∧ ((FullIndexOperation.run ⟨[120, 9, 121, 10], true⟩ none
        IndexingData.empty none none).2.1.linePosition.fakeFinalLF
      = false) := by
  have hrun : (FullIndexOperation.run ⟨[120, 9, 121, 10], true⟩ none
      IndexingData.empty none none).2.1
      = (doIndexE ⟨[120, 9, 121, 10], true⟩ 0 IndexingData.empty none
          none).1 := by
    rw [doIndexE_eq]
    rfl
  rw [hrun]
  refine ⟨by decide, by decide, by decide, by decide⟩

/-- Counterexample to C6 as stated: the display length of line 0 of
`"x\ty\n"` is not 8. -/
theorem tab_expansion_cex :
    (FullIndexOperation.run ⟨[120, 9, 121, 10], true⟩ none
      IndexingData.empty none none).2.1.maxLength ≠ 8 := by
  have hrun : (FullIndexOperation.run ⟨[120, 9, 121, 10], true⟩ none
      IndexingData.empty none none).2.1
      = (doIndexE ⟨[120, 9, 121, 10], true⟩ 0 IndexingData.empty none
          none).1 := by
    rw [doIndexE_eq]
    rfl
  rw [hrun]
  decide
